import Mathlib

/-!
Verification development for the BitcoinC-Core node.

Part I embeds `src/bitcoind.cpp` (`AppInit` and `main`) as an explicit
state-passing model: the outcome of each external call that `AppInit` makes
(argument parsing, config reading, the `AppInit*` steps from `init.cpp`,
daemonization, `AppInitMain`) is a field of an environment record, and the
model reproduces the control flow of `AppInit` over such an environment,
recording every call it performs as an event trace.

Part II models, from the specification, the components whose sources are not
in the repository snapshot (UTXO set, script verifier, mempool, chainstate
manager), and proves the specified properties about them.
-/

namespace BitcoinC

/-! ### Part I: bitcoind.cpp (AppInit / main) -/

/-- Result of calling one of the fallible initialization routines from
`init.cpp` (`AppInitBasicSetup`, `AppInitParameterInteraction`,
`AppInitSanityChecks`, `AppInitLockDataDirectory`, `AppInitMain`): either it
returns a boolean or it throws a C++ exception that propagates to the
try/catch in `AppInit`. -/
inductive CallResult where
  | ret (b : Bool)
  | raised
deriving DecidableEq, Repr

/-- Modelled from the spec: `IsSwitchChar` (declared in `util.h`, not in the
snapshot) recognizes the command-line switch character; on the platforms the
daemon targets this is the dash. -/
def IsSwitchChar (c : Char) : Bool := c = '-'

/-- First character of a C string: for an empty `std::string`/`char*` the
read `argv[i][0]` yields the NUL terminator. -/
def firstChar (s : String) : Char := s.toList.headD (Char.ofNat 0)

/-- `EXIT_SUCCESS` from `<cstdlib>`. -/
def EXIT_SUCCESS : Nat := 0

/-- `EXIT_FAILURE` from `<cstdlib>`. -/
def EXIT_FAILURE : Nat := 1

/-- Environment of one `AppInit` run: the outcome of every external call the
function makes, in the non-ZMQ, non-Windows build (`ENABLE_ZMQ` and `WIN32`
blocks are conditionally compiled out). `args` is `argv[1..]`. -/
structure AppEnv where
  args : List String
  parseOk : Bool
  helpRequested : Bool
  versionArgSet : Bool
  datadirExists : Bool
  readConfigOk : Bool
  selectParamsOk : Bool
  daemonArg : Bool
  daemonOk : Bool
  basicSetup : CallResult
  paramInteraction : CallResult
  sanityChecks : CallResult
  lockDataDir : CallResult
  initMain : CallResult
deriving DecidableEq, Repr

/-- The externally visible calls `AppInit` makes, in order. -/
inductive Event where
  | setupServerArgs
  | printHelp
  | printLicense
  | softSetServer
  | initLogging
  | initParamInteraction
  | callBasicSetup
  | callParamInteraction
  | callSanityChecks
  | daemonize
  | callLockDataDir
  | callMain
  | printExceptionContinue
  | interrupt
  | waitForShutdown
  | shutdown
deriving DecidableEq, Repr

/-- How the body of the `try` block in `AppInit` ends: an early `return b`
(which leaves `AppInit` without reaching the code after the try/catch), a
direct `exit(code)` call, normal completion with `fRet` set by
`AppInitMain`, or a thrown exception (caught by the handlers). The event
list records the calls performed inside the block. -/
inductive TryEnd where
  | earlyReturn (b : Bool) (evs : List Event)
  | exitedProcess (code : Nat) (evs : List Event)
  | completed (fRet : Bool) (evs : List Event)
  | raised (evs : List Event)
deriving DecidableEq, Repr

/-- The loop at bitcoind.cpp:133: the first loose (non-switch) token on the
command line, if any. -/
def looseToken (args : List String) : Option String :=
  args.find? (fun s => ! IsSwitchChar (firstChar s))

/-- The body of the `try` block of `AppInit` (bitcoind.cpp:115-194):
data-directory check, config read, chain selection, loose-token check,
parameter interactions, the `AppInit*` steps, optional daemonization,
data-directory locking, and finally `AppInitMain`. -/
def tryBody (env : AppEnv) : TryEnd :=
  if ! env.datadirExists then .earlyReturn false []
  else if ! env.readConfigOk then .earlyReturn false []
  else if ! env.selectParamsOk then .earlyReturn false []
  else if (looseToken env.args).isSome then .exitedProcess EXIT_FAILURE []
  else
    let evs0 : List Event := [.softSetServer, .initLogging, .initParamInteraction]
    match env.basicSetup with
    | .raised => .raised (evs0 ++ [.callBasicSetup])
    | .ret false => .earlyReturn false (evs0 ++ [.callBasicSetup])
    | .ret true =>
      let evs1 := evs0 ++ [.callBasicSetup]
      match env.paramInteraction with
      | .raised => .raised (evs1 ++ [.callParamInteraction])
      | .ret false => .earlyReturn false (evs1 ++ [.callParamInteraction])
      | .ret true =>
        let evs2 := evs1 ++ [.callParamInteraction]
        match env.sanityChecks with
        | .raised => .raised (evs2 ++ [.callSanityChecks])
        | .ret false => .earlyReturn false (evs2 ++ [.callSanityChecks])
        | .ret true =>
          let evs3 := evs2 ++ [.callSanityChecks]
          if env.daemonArg && ! env.daemonOk then
            .earlyReturn false (evs3 ++ [.daemonize])
          else
            let evs4 := evs3 ++ (if env.daemonArg then [Event.daemonize] else [])
            match env.lockDataDir with
            | .raised => .raised (evs4 ++ [.callLockDataDir])
            | .ret false => .earlyReturn false (evs4 ++ [.callLockDataDir])
            | .ret true =>
              let evs5 := evs4 ++ [.callLockDataDir]
              match env.initMain with
              | .raised => .raised (evs5 ++ [.callMain])
              | .ret b => .completed b (evs5 ++ [.callMain])

/-- Result of `AppInit`: either the function returns a boolean to `main`, or
the process exits directly via `exit(code)`. -/
inductive ExitKind where
  | returned (b : Bool)
  | exited (code : Nat)
deriving DecidableEq, Repr

/-- An `AppInit` run: its outcome plus the trace of calls it performed. -/
structure AppInitRun where
  outcome : ExitKind
  events : List Event
deriving DecidableEq, Repr

/-- `AppInit` (bitcoind.cpp:61-211): parse parameters; print help/license and
return `true` if requested; otherwise run the `try` block, and on the paths
that flow past the try/catch run `Interrupt`/`WaitForShutdown` and
`Shutdown` before returning `fRet`. -/
def AppInit (env : AppEnv) : AppInitRun :=
  if ! env.parseOk then
    { outcome := .returned false, events := [.setupServerArgs] }
  else if env.helpRequested || env.versionArgSet then
    { outcome := .returned true
      events := [.setupServerArgs,
        if env.versionArgSet then Event.printLicense else Event.printHelp] }
  else
    match tryBody env with
    | .earlyReturn b evs =>
      { outcome := .returned b, events := .setupServerArgs :: evs }
    | .exitedProcess c evs =>
      { outcome := .exited c, events := .setupServerArgs :: evs }
    | .completed fRet evs =>
      { outcome := .returned fRet
        events := .setupServerArgs :: evs ++
          (if fRet then [Event.waitForShutdown] else [Event.interrupt]) ++
          [Event.shutdown] }
    | .raised evs =>
      { outcome := .returned false
        events := .setupServerArgs :: evs ++
          [.printExceptionContinue, .interrupt, .shutdown] }

/-- `main` (bitcoind.cpp:213-221): the process exit status — `EXIT_SUCCESS`
iff `AppInit` returned `true`, and the `exit` status if `AppInit` called
`exit` directly. -/
def mainStatus (env : AppEnv) : Nat :=
  match (AppInit env).outcome with
  | .exited c => c
  | .returned b => if b then EXIT_SUCCESS else EXIT_FAILURE

/-- Events that only the code after the try/catch of `AppInit` can emit. -/
def noEpilogue (evs : List Event) : Prop :=
  Event.shutdown ∉ evs ∧ Event.printExceptionContinue ∉ evs ∧
  Event.waitForShutdown ∉ evs ∧ Event.interrupt ∉ evs

/-- Trace shape of each way the try block can end. -/
def goodTry : TryEnd → Prop
  | .earlyReturn b evs => noEpilogue evs ∧ Event.callMain ∉ evs ∧ b = false
  | .exitedProcess c evs => noEpilogue evs ∧ Event.callMain ∉ evs ∧ c = EXIT_FAILURE
  | .completed _ evs => noEpilogue evs ∧ Event.callMain ∈ evs
  | .raised evs => noEpilogue evs

/-- A concrete environment where `-h` is given: help requested, everything
else would succeed. -/
def envHelp : AppEnv :=
  { args := [], parseOk := true, helpRequested := true, versionArgSet := false
    datadirExists := true, readConfigOk := true, selectParamsOk := true
    daemonArg := false, daemonOk := true
    basicSetup := .ret true, paramInteraction := .ret true
    sanityChecks := .ret true, lockDataDir := .ret true, initMain := .ret true }

/-- A concrete environment where `AppInitBasicSetup` reports failure while
everything before it succeeds. -/
def envEarlyFail : AppEnv :=
  { args := [], parseOk := true, helpRequested := false, versionArgSet := false
    datadirExists := true, readConfigOk := true, selectParamsOk := true
    daemonArg := false, daemonOk := true
    basicSetup := .ret false, paramInteraction := .ret true
    sanityChecks := .ret true, lockDataDir := .ret true, initMain := .ret true }

/-- A concrete environment whose command line carries the loose token
`datadir` (no leading dash) after an otherwise valid invocation. -/
def envLoose : AppEnv :=
  { args := ["datadir"], parseOk := true, helpRequested := false, versionArgSet := false
    datadirExists := true, readConfigOk := true, selectParamsOk := true
    daemonArg := false, daemonOk := true
    basicSetup := .ret true, paramInteraction := .ret true
    sanityChecks := .ret true, lockDataDir := .ret true, initMain := .ret true }

/-! ### Part II: components modelled from the specification

The UTXO Set, Validator, Chainstate Manager, Mempool and Script Verifier
sources are not in the repository snapshot; the definitions below are built
from the specification's §3-§4.6 and are marked `Modelled from the spec:`. -/

/-- Outpoint: reference to a prior output, (transaction id, output index);
the 256-bit digest is modelled as a natural number (§3). -/
abbrev OutPoint := Nat × Nat

/-- Modelled from the spec: `UTXOEntry` (§3) — value, locking script,
creation height, coinbase flag; the UTXO Set sources are missing from the
snapshot. -/
structure UTXOEntry where
  value : Nat
  lockScript : List Nat
  height : Nat
  coinbase : Bool
deriving DecidableEq, Repr

/-- Modelled from the spec: the UTXO Set as the authoritative mapping from
outpoints to live spendable-output entries (§2, §4.2); at most one live
entry per key by construction. -/
def UtxoSet := OutPoint → Option UTXOEntry

/-- Spending removes the entry under a key. -/
def utxoErase (op : OutPoint) (S : UtxoSet) : UtxoSet :=
  fun p => if p = op then none else S p

/-- Adding a new entry under a key. -/
def utxoInsert (op : OutPoint) (e : UTXOEntry) (S : UtxoSet) : UtxoSet :=
  fun p => if p = op then some e else S p

/-- Modelled from the spec: performing a batch of spends in order — each
spend must find a live, not-already-spent entry, else the whole batch fails
(§4.2). Returns the spent set and the undo records (the spent entries). -/
def spendAll (S : UtxoSet) :
    List OutPoint → Option (UtxoSet × List (OutPoint × UTXOEntry))
  | [] => some (S, [])
  | op :: rest =>
    match S op with
    | none => none
    | some e =>
      match spendAll (utxoErase op S) rest with
      | none => none
      | some (S2, recs) => some (S2, (op, e) :: recs)

/-- Modelled from the spec: adding a batch of new entries in order — a
duplicate-output collision with an existing key fails the whole batch
(§4.2). -/
def addAll (S : UtxoSet) : List (OutPoint × UTXOEntry) → Option UtxoSet
  | [] => some S
  | pe :: rest =>
    match S pe.1 with
    | some _ => none
    | none => addAll (utxoInsert pe.1 pe.2 S) rest

/-- Modelled from the spec: `apply(batch of spends, batch of new entries)`
(§4.2), atomic — `none` signals the invalid-block condition to the caller,
which keeps its set; `some` carries the fully committed set and the undo
records for the spends. -/
def apply (S : UtxoSet) (spends : List OutPoint)
    (adds : List (OutPoint × UTXOEntry)) :
    Option (UtxoSet × List (OutPoint × UTXOEntry)) :=
  match spendAll S spends with
  | none => none
  | some (S2, recs) =>
    match addAll S2 adds with
    | none => none
    | some S3 => some (S3, recs)

/-- Modelled from the spec: `undo(same batch, in reverse)` (§4.2) — removes
the batch's created entries and restores the spent ones from the undo
records. -/
def undo (S : UtxoSet) (adds : List (OutPoint × UTXOEntry))
    (recs : List (OutPoint × UTXOEntry)) : UtxoSet :=
  recs.foldr (fun pe acc => utxoInsert pe.1 pe.2 acc)
    (adds.foldr (fun pe acc => utxoErase pe.1 acc) S)

/-- First entry under a key in an association list of created outputs. -/
def lookupKey (op : OutPoint) : List (OutPoint × UTXOEntry) → Option UTXOEntry
  | [] => none
  | pe :: rest => if pe.1 = op then some pe.2 else lookupKey op rest

/-- Modelled from the spec: the per-block content the Chainstate Manager
consumes — the block's own digest and its parent's, the proof-of-work
amount its header target contributes, the outpoints its transactions
spend, the outputs they create, and the verdict of the Validator's
contextual checks that are independent of UTXO existence (script
verification per input, locktime/sequence rules, coinbase maturity,
subsidy), abstracted as a flag (§3, §4.4, §4.5). -/
structure BlockData where
  id : Nat
  prev : Nat
  work : Nat
  spends : List OutPoint
  creates : List (OutPoint × UTXOEntry)
  ctxOk : Bool
deriving DecidableEq, Repr

/-- Modelled from the spec: connecting a block to a UTXO set = applying its
batch of spends and created outputs (§4.2, §4.5). -/
def connectBlockUtxo (S : UtxoSet) (b : BlockData) :
    Option (UtxoSet × List (OutPoint × UTXOEntry)) :=
  apply S b.spends b.creates

/-- Modelled from the spec: disconnecting a block = undoing the same batch
in reverse (§4.2, §4.5). -/
def disconnectBlockUtxo (S : UtxoSet) (b : BlockData)
    (recs : List (OutPoint × UTXOEntry)) : UtxoSet :=
  undo S b.creates recs

/-- Sample entry: a mature coinbase output of 50 units. -/
def entry0 : UTXOEntry := ⟨50, [118], 0, true⟩

/-- Sample entry: a 20-unit payment output. -/
def entry1 : UTXOEntry := ⟨20, [172], 1, false⟩

/-- Sample UTXO set holding only `entry0` at outpoint (1,0). -/
def utxo0 : UtxoSet :=
  fun p => if p = ((1 : Nat), (0 : Nat)) then some entry0 else none

/-- Sample block spending (1,0) and creating (2,0). -/
def block1 : BlockData :=
  { id := 2, prev := 1, work := 1, spends := [(1, 0)]
    creates := [((2, 0), entry1)], ctxOk := true }

/-- `utxo0` after connecting `block1`. -/
def utxo1 : UtxoSet :=
  fun p => if p = ((2 : Nat), (0 : Nat)) then some entry1
           else utxoErase (1, 0) utxo0 p

/-- Modelled from the spec: rejection reason codes of the Script/Signature
Verifier (§4.1, §7); the script interpreter sources are missing from the
snapshot. -/
inductive ScriptReason where
  | scriptTooLarge
  | opCountExceeded
  | stackUnderflow
  | badOpcode
  | disabledOpcode
  | invalidSignature
  | nonCanonicalEncoding
  | evalFalse
deriving DecidableEq, Repr

/-- Definite verifier outcome: accept, or reject with a reason code. -/
inductive ScriptResult where
  | accept
  | reject (code : ScriptReason)
deriving DecidableEq, Repr

/-- Modelled from the spec: the versioned rule-set `flags` describing which
soft-fork rules are in effect (§4.1): strict signature-encoding
enforcement, and whether deprecated opcodes are still admitted. -/
structure Flags where
  strictEncoding : Bool
  allowDeprecated : Bool
deriving DecidableEq, Repr

/-- Script size limit enforced by the verifier (§4.1). -/
def MAX_SCRIPT_SIZE : Nat := 10000

/-- Operation-count limit enforced by the verifier (§4.1). -/
def MAX_OPS : Nat := 201

/-- Modelled from the spec: the signature a correct signer produces for a
signed digest under a public key, abstracting the cryptographic scheme as
a canonical blob; the trailing 1 is the canonical hash-type byte. -/
def sigFor (digest : Nat) (pubkey : List Nat) : List Nat :=
  pubkey ++ [digest % 251, 1]

/-- A stack element is truthy when any byte is nonzero. -/
def truthy (bytes : List Nat) : Bool :=
  bytes.any (fun x => x ≠ 0)

/-- Modelled from the spec: the stack machine evaluating one script over a
closed tagged operation set (§4.1, §9) — byte 0 pushes the empty vector,
1..75 push that many following bytes (truncated data is non-canonical),
81..96 push a small number, 118 duplicates, 135 compares two elements,
149 is a deprecated opcode admitted only under `allowDeprecated`, 172
checks a signature against the signed digest, anything else is an unknown
opcode; non-push operations are counted against `MAX_OPS`. Total on all
byte strings, malformed ones included. -/
def runScript (f : Flags) (digest : Nat) :
    List Nat → List (List Nat) → Nat → Except ScriptReason (List (List Nat))
  | [], stack, _ => .ok stack
  | b :: rest, stack, ops =>
    if b = 0 then runScript f digest rest ([] :: stack) ops
    else if 1 ≤ b ∧ b ≤ 75 then
      if b ≤ rest.length then
        runScript f digest (rest.drop b) (rest.take b :: stack) ops
      else .error .nonCanonicalEncoding
    else if MAX_OPS ≤ ops then .error .opCountExceeded
    else if 81 ≤ b ∧ b ≤ 96 then
      runScript f digest rest ([b - 80] :: stack) (ops + 1)
    else if b = 118 then
      match stack with
      | [] => .error .stackUnderflow
      | top :: more => runScript f digest rest (top :: top :: more) (ops + 1)
    else if b = 135 then
      match stack with
      | x :: y :: more =>
        runScript f digest rest ((if x = y then [1] else []) :: more) (ops + 1)
      | _ => .error .stackUnderflow
    else if b = 149 then
      if f.allowDeprecated then runScript f digest rest stack (ops + 1)
      else .error .disabledOpcode
    else if b = 172 then
      match stack with
      | pubkey :: sig :: more =>
        if sig = sigFor digest pubkey then
          runScript f digest rest ([1] :: more) (ops + 1)
        else if f.strictEncoding ∧ sig.getLast? ≠ some 1 then
          .error .nonCanonicalEncoding
        else if f.strictEncoding then .error .invalidSignature
        else runScript f digest rest ([] :: more) (ops + 1)
      | _ => .error .stackUnderflow
    else .error .badOpcode
termination_by script _ _ => script.length
decreasing_by
  all_goals simp_all
  all_goals omega

/-- Modelled from the spec: `verify(unlockingScript, lockingScript,
signedDigest, flags)` (§4.1) — enforce the size limits, evaluate the
unlocking script on an empty stack, then the locking script on the
resulting stack, and accept iff the final top element is truthy; every
failure carries a reason code. -/
def verify (unlocking locking : List Nat) (digest : Nat) (f : Flags) :
    ScriptResult :=
  if MAX_SCRIPT_SIZE < unlocking.length ∨ MAX_SCRIPT_SIZE < locking.length then
    .reject .scriptTooLarge
  else
    match runScript f digest unlocking [] 0 with
    | .error r => .reject r
    | .ok stack1 =>
      match runScript f digest locking stack1 0 with
      | .error r => .reject r
      | .ok stack2 =>
        match stack2 with
        | [] => .reject .evalFalse
        | top :: _ => if truthy top then .accept else .reject .evalFalse

/-- Modelled from the spec: a mempool transaction — id, inputs (outpoint
and sequence number), absolute fee, serialized size (§3, §4.6); the
mempool sources are missing from the snapshot. -/
structure MempoolTx where
  txid : Nat
  inputs : List (OutPoint × Nat)
  fee : Nat
  size : Nat
deriving DecidableEq, Repr

/-- Opt-in replace-by-fee signaling via sequence numbers: some input
sequence is below 0xfffffffe (§3, §4.6). -/
def signalsRBF (t : MempoolTx) : Bool :=
  t.inputs.any (fun i => i.2 < 0xfffffffe)

/-- Two transactions conflict when they spend a common outpoint (§4.6). -/
def conflictsWith (a b : MempoolTx) : Bool :=
  a.inputs.any (fun i => b.inputs.any (fun j => j.1 = i.1))

/-- Minimum relay fee rate (policy parameter, §4.6, §9). -/
def minRelayFeeRate : Nat := 1

/-- `a`'s total fee rate is strictly higher than `b`'s, compared by cross
multiplication: a.fee / a.size > b.fee / b.size. -/
def feeRateHigher (a b : MempoolTx) : Bool :=
  b.fee * a.size < a.fee * b.size

/-- Mempool admission outcome with its rejection reasons (§4.6, §7). -/
inductive AdmitResult where
  | accepted
  | rejectedBelowMinFee
  | rejectedNoRBFSignal
  | rejectedLowFeeRate
  | rejectedInsufficientFee
deriving DecidableEq, Repr

/-- Modelled from the spec: mempool admission `tryAdd(tx)` (§4.6) — reject
below the minimum relay fee rate; accept outright when nothing conflicts;
on conflict, replace-by-fee requires every conflicting entry to opt in by
sequence signaling, the replacement to carry a strictly higher fee rate
than every conflicting entry, and its absolute fee to cover the evicted
entries' fees plus the replacement's own bandwidth at the relay rate; a
successful replacement removes the conflicting entries and inserts the
replacement. -/
def tryAdd (pool : List MempoolTx) (tx : MempoolTx) :
    AdmitResult × List MempoolTx :=
  if tx.fee < minRelayFeeRate * tx.size then (.rejectedBelowMinFee, pool)
  else if (pool.filter (fun e => conflictsWith tx e)).isEmpty then
    (.accepted, pool ++ [tx])
  else if ! (pool.filter (fun e => conflictsWith tx e)).all
        (fun e => signalsRBF e) then
    (.rejectedNoRBFSignal, pool)
  else if ! (pool.filter (fun e => conflictsWith tx e)).all
        (fun e => feeRateHigher tx e) then
    (.rejectedLowFeeRate, pool)
  else if tx.fee <
      ((pool.filter (fun e => conflictsWith tx e)).map (fun e => e.fee)).sum +
        minRelayFeeRate * tx.size then
    (.rejectedInsufficientFee, pool)
  else
    (.accepted, pool.filter (fun e => ! conflictsWith tx e) ++ [tx])

/-- Concrete mempool entry: fee 1000 at size 100 (rate 10/byte), opt-in. -/
def tOld : MempoolTx := { txid := 10, inputs := [((5, 0), 0)], fee := 1000, size := 100 }

/-- Concrete conflicting replacement: fee 2000 at size 1000 (rate 2/byte),
covering `tOld.fee` plus its own bandwidth, but with a lower fee rate. -/
def tNew : MempoolTx := { txid := 11, inputs := [((5, 0), 0)], fee := 2000, size := 1000 }

/-- Concrete well-formed replacement: fee 2200 at size 110 (rate 20/byte). -/
def tRep : MempoolTx := { txid := 12, inputs := [((5, 0), 0)], fee := 2200, size := 110 }

/-- Modelled from the spec: a Block Index node — block data, height,
cumulative chain work (monotone along ancestry), validity flag (`invalid`
covers the failed states, poisoning descendants) and first-seen sequence
number used to break work ties (§3 BlockIndexNode, §4.3). -/
structure NodeInfo where
  data : BlockData
  height : Nat
  chainWork : Nat
  invalid : Bool
  seq : Nat
deriving DecidableEq, Repr

/-- Arena lookup by block id (§9: nodes addressed by block id, parent and
child relations stored as id lookups). -/
def lookupNode : List NodeInfo → Nat → Option NodeInfo
  | [], _ => none
  | n :: rest, id => if n.data.id = id then some n else lookupNode rest id

/-- The genesis block of the model chain (height 0, creating the first
coinbase output). -/
def genesisBlock : BlockData :=
  { id := 1, prev := 0, work := 1, spends := []
    creates := [((1, 0), ⟨50, [], 0, true⟩)], ctxOk := true }

/-- The index node of the genesis block. -/
def genesisNode : NodeInfo :=
  { data := genesisBlock, height := 0, chainWork := genesisBlock.work
    invalid := false, seq := 0 }

/-- Walk the parent references of a block down to height 0, returning its
ancestor path in genesis-first order; the fuel bounds the walk. -/
def pathAux (index : List NodeInfo) : Nat → Nat → Option (List Nat)
  | 0, _ => none
  | fuel + 1, id =>
    match lookupNode index id with
    | none => none
    | some n =>
      if n.height = 0 then some [id]
      else
        match pathAux index fuel n.data.prev with
        | none => none
        | some l => some (l ++ [id])

/-- Modelled from the spec: the deterministic ancestor walk of §4.3 — the
full ancestor path of a block, genesis first, ending in the block itself. -/
def pathTo (index : List NodeInfo) (id : Nat) : Option (List Nat) :=
  match lookupNode index id with
  | none => none
  | some n => pathAux index (n.height + 1) id

/-- Membership test on an id list. -/
def containsId : List Nat → Nat → Bool
  | [], _ => false
  | y :: rest, x => if y = x then true else containsId rest x

/-- Last id of a chain (0, the null id, for the empty chain). -/
def lastId : List Nat → Nat
  | [] => 0
  | [x] => x
  | _ :: y :: rest => lastId (y :: rest)

/-- Undo records stored per connected block. -/
abbrev UndoStore := List (Nat × List (OutPoint × UTXOEntry))

/-- The stored undo records of a block (empty when none were stored). -/
def lookupUndo : UndoStore → Nat → List (OutPoint × UTXOEntry)
  | [], _ => []
  | p :: rest, id => if p.1 = id then p.2 else lookupUndo rest id

/-- The outputs a block created, read back from the index. -/
def blockCreates (index : List NodeInfo) (id : Nat) :
    List (OutPoint × UTXOEntry) :=
  match lookupNode index id with
  | some n => n.data.creates
  | none => []

/-- Modelled from the spec: disconnect a suffix of the active chain in
reverse connection order, undoing each block's batch with its stored undo
records (§4.2 `undo`, §4.5). -/
def disconnectAll (index : List NodeInfo) (store : UndoStore) :
    List Nat → UtxoSet → UtxoSet
  | [], u => u
  | id :: rest, u =>
    undo (disconnectAll index store rest u) (blockCreates index id)
      (lookupUndo store id)

/-- Length of the common leading stem of two chains: everything up to the
fork point (§4.5 "compute the fork point"). -/
def sharedStemLen : List Nat → List Nat → Nat
  | a :: arest, b :: brest => if a = b then sharedStemLen arest brest + 1 else 0
  | _, _ => 0

/-- Outcome of connecting a run of candidate blocks. -/
inductive ConnectResult where
  | ok (u : UtxoSet) (store : UndoStore)
  | failed (blockId : Nat)
  | broken

/-- Modelled from the spec: connect candidate blocks in forward order,
running the contextual checks at each step (§4.5): the Validator verdict
for the UTXO-independent rules plus the atomic batch `apply`; the first
failing block aborts the walk and is reported. -/
def connectAll (index : List NodeInfo) :
    List Nat → UtxoSet → UndoStore → ConnectResult
  | [], u, store => .ok u store
  | id :: rest, u, store =>
    match lookupNode index id with
    | none => .broken
    | some n =>
      if ! n.data.ctxOk then .failed id
      else
        match apply u n.data.spends n.data.creates with
        | none => .failed id
        | some (u2, recs) => connectAll index rest u2 (store ++ [(id, recs)])

/-- Modelled from the spec: the Chainstate Manager's explicit context
object — Block Index arena, active chain (genesis-first id list), UTXO
Set, stored undo data, first-seen counter (§4.5, §9). -/
structure ChainState where
  index : List NodeInfo
  activeChain : List Nat
  utxo : UtxoSet
  undoStore : UndoStore
  nextSeq : Nat

/-- The id of the active tip. -/
def tipId (s : ChainState) : Nat := lastId s.activeChain

/-- Outcome of one reorg attempt. -/
inductive ReorgOutcome where
  | ok (u : UtxoSet) (chain : List Nat) (store : UndoStore)
  | failedConnect (blockId : Nat)
  | stuck

/-- Modelled from the spec: one reorg attempt of `ActivateBestChain()`
(§4.5) — compute the fork point with the candidate's ancestor path,
disconnect the active blocks above it in reverse order, then connect the
candidate blocks up from it in forward order; evaluated against the
snapshot, so a failed attempt commits nothing to the live state. -/
def attemptReorg (s : ChainState) (cid : Nat) : ReorgOutcome :=
  match pathTo s.index cid with
  | none => .stuck
  | some newPath =>
    match connectAll s.index
        (newPath.drop (sharedStemLen s.activeChain newPath))
        (disconnectAll s.index s.undoStore
          (s.activeChain.drop (sharedStemLen s.activeChain newPath)) s.utxo)
        (s.undoStore.filter
          (fun p => ! containsId
            (s.activeChain.drop (sharedStemLen s.activeChain newPath)) p.1)) with
    | .ok u2 store2 => .ok u2 newPath store2
    | .failed b => .failedConnect b
    | .broken => .stuck

/-- `id` lies in the subtree rooted at `rootId`: its ancestor path passes
through `rootId`. -/
def inSubtree (index : List NodeInfo) (rootId id : Nat) : Bool :=
  match pathTo index id with
  | none => false
  | some p => containsId p rootId

/-- Mark one node invalid when it lies in the subtree of `rootId`. -/
def markNode (index : List NodeInfo) (rootId : Nat) (n : NodeInfo) : NodeInfo :=
  if inSubtree index rootId n.data.id then { n with invalid := true } else n

/-- Modelled from the spec: mark a block invalid, poisoning all of its
descendants (§4.5, §7 consensus-invalid handling). -/
def markInvalidFrom (index : List NodeInfo) (rootId : Nat) : List NodeInfo :=
  index.map (markNode index rootId)

/-- Handling of a failed connect step: mark the failing block's branch
invalid; active chain, UTXO Set and undo data stay those from before the
attempt (the rollback is complete by construction). -/
def applyFailure (s : ChainState) (rootId : Nat) : ChainState :=
  { s with index := markInvalidFrom s.index rootId }

/-- Candidate `a` beats `b`: strictly more cumulative work, or equal work
and seen earlier (§3, §4.5: ties broken by first-seen). -/
def betterCand (a b : NodeInfo) : Bool :=
  b.chainWork < a.chainWork || (a.chainWork == b.chainWork && a.seq < b.seq)

/-- One step of the candidate scan: invalid nodes are skipped, a strictly
better valid node replaces the current best. -/
def candStep (best : Option NodeInfo) (n : NodeInfo) : Option NodeInfo :=
  if n.invalid then best
  else
    match best with
    | none => some n
    | some b => if betterCand n b then some n else some b

/-- Modelled from the spec: `mostWorkCandidate()` (§4.3) — the valid node
of maximum cumulative work, ties resolved in favour of the first seen. -/
def mostWorkCandidate (index : List NodeInfo) : Option NodeInfo :=
  index.foldl candStep none

/-- Number of valid nodes in the arena. -/
def validCount (index : List NodeInfo) : Nat :=
  (index.filter (fun n => ! n.invalid)).length

/-- Modelled from the spec: the `ActivateBestChain()` loop (§4.5) — while
the most-work valid candidate differs from the active tip, attempt the
reorg to it; commit on success, or mark the failing block's branch invalid
and retry with the next-best candidate. Every failure strictly shrinks the
valid set, so `validCount + 1` iterations reach quiescence. -/
def abcLoop : Nat → ChainState → ChainState
  | 0, s => s
  | fuel + 1, s =>
    match mostWorkCandidate s.index with
    | none => s
    | some c =>
      if c.data.id = tipId s then s
      else
        match attemptReorg s c.data.id with
        | .ok u chain store =>
          abcLoop fuel
            { s with utxo := u, activeChain := chain, undoStore := store }
        | .failedConnect b => abcLoop fuel (applyFailure s b)
        | .stuck => s

/-- Modelled from the spec: `ActivateBestChain()` (§4.5). -/
def ActivateBestChain (s : ChainState) : ChainState :=
  abcLoop (validCount s.index + 1) s

/-- Outcome of submitting a block. -/
inductive SubmitResult where
  | alreadyKnown
  | missingParent
  | badWork
  | accepted
deriving DecidableEq, Repr

/-- Modelled from the spec: `insertHeader` (§4.3) — a known id is reported
as already known and nothing changes; the parent must be known; the proof
of work must be positive; the new node inherits invalidity from its parent
(a poisoned branch stays poisoned) and records height, cumulative work
(parent's work plus its own) and first-seen order. -/
def insertHeader (s : ChainState) (b : BlockData) : SubmitResult × ChainState :=
  match lookupNode s.index b.id with
  | some _ => (.alreadyKnown, s)
  | none =>
    match lookupNode s.index b.prev with
    | none => (.missingParent, s)
    | some p =>
      if b.work = 0 then (.badWork, s)
      else
        (.accepted,
          { s with
            index := s.index ++
              [{ data := b, height := p.height + 1,
                 chainWork := p.chainWork + b.work, invalid := p.invalid,
                 seq := s.nextSeq }]
            nextSeq := s.nextSeq + 1 })

/-- Modelled from the spec: submitting a block — record it in the Block
Index and re-run chain selection (§4.5, §8); resubmitting a known block
reports "already known" and changes nothing. -/
def submitBlock (s : ChainState) (b : BlockData) : SubmitResult × ChainState :=
  match insertHeader s b with
  | (.accepted, s1) => (.accepted, ActivateBestChain s1)
  | r => r

/-- Modelled from the spec: the initial chain state — genesis connected and
active, its outputs live (§4.5, §8). -/
def initState : ChainState :=
  { index := [genesisNode]
    activeChain := [genesisBlock.id]
    utxo := fun p => lookupKey p genesisBlock.creates
    undoStore := [(genesisBlock.id, [])]
    nextSeq := 1 }

/-- Reachable chain states: the initial state and everything `submitBlock`
produces from a reachable state. -/
inductive Reachable : ChainState → Prop where
  | init : Reachable initState
  | submit (s : ChainState) (b : BlockData) :
      Reachable s → Reachable (submitBlock s b).2

/-- Header-level well-formedness of one node: height 0 is genesis; any
other node chains to a parent one level down, with cumulative work
strictly additive (parent's plus its own positive work). -/
def parentOk (index : List NodeInfo) (n : NodeInfo) : Bool :=
  if n.height = 0 then n.data.id == genesisBlock.id
  else
    match lookupNode index n.data.prev with
    | none => false
    | some p =>
      (p.height + 1 == n.height) && (n.chainWork == p.chainWork + n.data.work)
        && decide (0 < n.data.work)

/-- Arena well-formedness: unique ids, every node header-well-formed. -/
def WfIndex (index : List NodeInfo) : Prop :=
  (index.map (fun n => n.data.id)).Nodup ∧ ∀ n ∈ index, parentOk index n = true

/-- The genesis node is known, at height 0, and valid. -/
def genesisOk (index : List NodeInfo) : Bool :=
  match lookupNode index genesisBlock.id with
  | some g => (g.height == 0) && ! g.invalid
  | none => false

/-- The active tip is the most-work valid candidate. -/
def tipIsCandidate (s : ChainState) : Bool :=
  match mostWorkCandidate s.index with
  | some t => t.data.id == tipId s
  | none => false

/-- The part of the invariant that holds even between chain selections. -/
def PreInv (s : ChainState) : Prop :=
  WfIndex s.index ∧ genesisOk s.index = true ∧
  pathTo s.index (tipId s) = some s.activeChain

/-- The standing invariant of the Chainstate Manager between operations. -/
def ChainInv (s : ChainState) : Prop :=
  PreInv s ∧ tipIsCandidate s = true

/-- A block whose contextual validation fails (§4.5 failure scenario). -/
def blockBad : BlockData :=
  { id := 2, prev := 1, work := 5, spends := [], creates := [], ctxOk := false }

/-- Index node of `blockBad` as a fresh candidate. -/
def nodeBad : NodeInfo :=
  { data := blockBad, height := 1, chainWork := 6, invalid := false, seq := 1 }

/-- A state about to reorg onto the failing branch. -/
def sC3 : ChainState :=
  { index := [genesisNode, nodeBad]
    activeChain := [genesisBlock.id]
    utxo := initState.utxo
    undoStore := [(genesisBlock.id, [])]
    nextSeq := 2 }

/-- A valid block extending genesis. -/
def blockA : BlockData :=
  { id := 2, prev := 1, work := 2, spends := []
    creates := [((2, 0), entry1)], ctxOk := true }

/-- Index node `blockA` receives on first submission. -/
def nodeA : NodeInfo :=
  { data := blockA, height := 1, chainWork := 3, invalid := false, seq := 1 }

/-- The chain state after submitting `blockA` to the initial state. -/
def sA : ChainState := (submitBlock initState blockA).2

end BitcoinC

namespace BitcoinC

/-! ### Theorems: Part I (bitcoind.cpp) -/

theorem tryBody_good (env : AppEnv) : goodTry (tryBody env) := by
  unfold tryBody
  repeat' split
  all_goals simp [goodTry, noEpilogue]

/-- C8: if the command line requests help (`HelpRequested`) or sets
`-version`, `AppInit` prints the usage or license text and returns `true`
without calling `AppInitBasicSetup`, `AppInitMain`, or any other
initialization step, so `main` exits with `EXIT_SUCCESS` having started no
node services. -/
theorem AppInit_help_or_version_short_circuits (env : AppEnv)
    (hp : env.parseOk = true)
    (hh : env.helpRequested = true ∨ env.versionArgSet = true) :
    (AppInit env).outcome = .returned true ∧
    mainStatus env = EXIT_SUCCESS ∧
    (Event.printHelp ∈ (AppInit env).events ∨ Event.printLicense ∈ (AppInit env).events) ∧
    Event.callBasicSetup ∉ (AppInit env).events ∧
    Event.callMain ∉ (AppInit env).events ∧
    ∀ e ∈ (AppInit env).events,
      e = Event.setupServerArgs ∨ e = Event.printHelp ∨ e = Event.printLicense := by
  have hho : (env.helpRequested || env.versionArgSet) = true := by
    rcases hh with h | h <;> simp [h]
  unfold mainStatus AppInit
  rw [hp, hho]
  cases hv : env.versionArgSet <;> simp [EXIT_SUCCESS]

theorem AppInit_help_or_version_short_circuits_witness :
    (AppInit envHelp).outcome = .returned true ∧
    mainStatus envHelp = EXIT_SUCCESS ∧
    (Event.printHelp ∈ (AppInit envHelp).events ∨ Event.printLicense ∈ (AppInit envHelp).events) ∧
    Event.callBasicSetup ∉ (AppInit envHelp).events ∧
    Event.callMain ∉ (AppInit envHelp).events ∧
    ∀ e ∈ (AppInit envHelp).events,
      e = Event.setupServerArgs ∨ e = Event.printHelp ∨ e = Event.printLicense :=
  AppInit_help_or_version_short_circuits envHelp rfl (Or.inl rfl)

/-- C9 counterexample: when `AppInitBasicSetup` reports failure (an
initialization path that returns failure), `AppInit` returns `false`
directly from the try block and `Shutdown()` is never invoked. -/
theorem AppInit_earlyFail_no_shutdown :
    (AppInit envEarlyFail).outcome = .returned false ∧
    Event.callBasicSetup ∈ (AppInit envEarlyFail).events ∧
    Event.shutdown ∉ (AppInit envEarlyFail).events ∧
    Event.interrupt ∉ (AppInit envEarlyFail).events := by
  decide

/-- C9 (amended): `main` returns `EXIT_SUCCESS` iff `AppInit` returns
`true`; `Shutdown()` is invoked exactly once on precisely those paths where
`AppInitMain` was invoked or an exception was caught (after
`WaitForShutdown` on success, after `Interrupt` on failure), while paths
that return earlier — help/version, parse failure, and pre-`AppInitMain`
failures returning `false` from the try block — never invoke `Shutdown`. -/
theorem AppInit_epilogue_shutdown (env : AppEnv) :
    (mainStatus env = EXIT_SUCCESS ↔ (AppInit env).outcome = .returned true) ∧
    ((AppInit env).events.count Event.shutdown =
      if Event.callMain ∈ (AppInit env).events ∨
         Event.printExceptionContinue ∈ (AppInit env).events
      then 1 else 0) ∧
    (Event.callMain ∈ (AppInit env).events → (AppInit env).outcome = .returned true →
      ∃ l, (AppInit env).events = l ++ [Event.waitForShutdown, Event.shutdown]) ∧
    ((Event.callMain ∈ (AppInit env).events ∨
      Event.printExceptionContinue ∈ (AppInit env).events) →
      (AppInit env).outcome = .returned false →
      ∃ l, (AppInit env).events = l ++ [Event.interrupt, Event.shutdown]) := by
  have hg := tryBody_good env
  unfold mainStatus AppInit
  cases hp : env.parseOk
  · simp [EXIT_SUCCESS, EXIT_FAILURE]
  · cases hh : (env.helpRequested || env.versionArgSet)
    · simp only [Bool.not_true, if_false]
      rcases ht : tryBody env with ⟨b, evs⟩ | ⟨c, evs⟩ | ⟨f, evs⟩ | evs <;>
        rw [ht] at hg <;> simp only [goodTry, noEpilogue] at hg
      · obtain ⟨⟨h1, h2, h3, h4⟩, h5, h6⟩ := hg
        subst h6
        simp [EXIT_SUCCESS, EXIT_FAILURE, h1, h2, h3, h5,
          List.count_eq_zero_of_not_mem h1]
      · obtain ⟨⟨h1, h2, h3, h4⟩, h5, h6⟩ := hg
        subst h6
        simp [EXIT_SUCCESS, EXIT_FAILURE, h1, h2, h3, h5,
          List.count_eq_zero_of_not_mem h1]
      · obtain ⟨⟨h1, h2, h3, h4⟩, h5⟩ := hg
        cases f <;>
          simp [EXIT_SUCCESS, EXIT_FAILURE, h1, h2, h3, h5, List.count_append,
            List.count_cons, List.count_eq_zero_of_not_mem h1] <;>
          refine ⟨Event.setupServerArgs :: evs, by simp⟩
      · obtain ⟨h1, h2, h3, h4⟩ := hg
        simp [EXIT_SUCCESS, EXIT_FAILURE, h1, h2, List.count_append,
          List.count_cons, List.count_eq_zero_of_not_mem h1]
        exact ⟨Event.setupServerArgs :: (evs ++ [Event.printExceptionContinue]), by simp⟩
    · cases hv : env.versionArgSet <;> simp [EXIT_SUCCESS]

/-- C10: for every command line that parses, whose data directory and config
are readable and whose chain selection succeeds, but which contains a loose
token (first character not a switch character), `AppInit` calls
`exit(EXIT_FAILURE)` before `AppInitBasicSetup`, daemonization,
data-directory locking, or `AppInitMain` is reached. -/
theorem AppInit_loose_token_exits (env : AppEnv)
    (hp : env.parseOk = true) (hh : env.helpRequested = false)
    (hv : env.versionArgSet = false) (hd : env.datadirExists = true)
    (hc : env.readConfigOk = true) (hs : env.selectParamsOk = true)
    (hl : (looseToken env.args).isSome = true) :
    (AppInit env).outcome = .exited EXIT_FAILURE ∧
    mainStatus env = EXIT_FAILURE ∧
    Event.callBasicSetup ∉ (AppInit env).events ∧
    Event.daemonize ∉ (AppInit env).events ∧
    Event.callLockDataDir ∉ (AppInit env).events ∧
    Event.callMain ∉ (AppInit env).events := by
  unfold mainStatus AppInit tryBody
  rw [hp, hh, hv, hd, hc, hs, hl]
  simp

theorem AppInit_loose_token_exits_witness :
    (AppInit envLoose).outcome = .exited EXIT_FAILURE ∧
    mainStatus envLoose = EXIT_FAILURE ∧
    Event.callBasicSetup ∉ (AppInit envLoose).events ∧
    Event.daemonize ∉ (AppInit envLoose).events ∧
    Event.callLockDataDir ∉ (AppInit envLoose).events ∧
    Event.callMain ∉ (AppInit envLoose).events :=
  AppInit_loose_token_exits envLoose rfl rfl rfl rfl rfl rfl (by decide)

/-! ### Theorems: Part II — UTXO Set (C1, C2) -/

theorem utxoErase_eval (op p : OutPoint) (S : UtxoSet) :
    utxoErase op S p = if p = op then none else S p := rfl

theorem utxoInsert_eval (op p : OutPoint) (e : UTXOEntry) (S : UtxoSet) :
    utxoInsert op e S p = if p = op then some e else S p := rfl

theorem addAll_foldr_erase :
    ∀ (adds : List (OutPoint × UTXOEntry)) (S S2 : UtxoSet),
    addAll S adds = some S2 →
    adds.foldr (fun pe acc => utxoErase pe.1 acc) S2 = S := by
  intro adds
  induction adds with
  | nil =>
    intro S S2 h
    simp only [addAll, Option.some.injEq] at h
    simp [h]
  | cons pe rest ih =>
    intro S S2 h
    simp only [addAll] at h
    cases hS : S pe.1 with
    | some e => rw [hS] at h; cases h
    | none =>
      rw [hS] at h
      have hrec := ih _ _ h
      simp only [List.foldr_cons, hrec]
      funext p
      by_cases hp : p = pe.1
      · subst hp; simp [utxoErase, hS]
      · simp [utxoErase, utxoInsert, hp]

theorem spendAll_foldr_insert :
    ∀ (spends : List OutPoint) (S S2 : UtxoSet)
      (recs : List (OutPoint × UTXOEntry)),
    spendAll S spends = some (S2, recs) →
    recs.foldr (fun pe acc => utxoInsert pe.1 pe.2 acc) S2 = S := by
  intro spends
  induction spends with
  | nil =>
    intro S S2 recs h
    simp only [spendAll, Option.some.injEq, Prod.mk.injEq] at h
    obtain ⟨h1, h2⟩ := h
    simp [← h1, ← h2]
  | cons op rest ih =>
    intro S S2 recs h
    simp only [spendAll] at h
    cases hS : S op with
    | none => rw [hS] at h; cases h
    | some e =>
      rw [hS] at h
      cases hrec : spendAll (utxoErase op S) rest with
      | none => rw [hrec] at h; cases h
      | some pr =>
        obtain ⟨S1, recs1⟩ := pr
        rw [hrec] at h
        simp only [Option.some.injEq, Prod.mk.injEq] at h
        obtain ⟨h1, h2⟩ := h
        subst h1
        subst h2
        have := ih _ _ _ hrec
        simp only [List.foldr_cons, this]
        funext p
        by_cases hp : p = op
        · subst hp; simp [utxoInsert, hS]
        · simp [utxoInsert, utxoErase, hp]

/-- C1: for every UTXO Set state S and block B, if connecting B to S
succeeds (producing S2 and the undo records) then disconnecting B from S2
restores S exactly — connect and disconnect are exact inverses. -/
theorem connect_disconnect_roundtrip (S S2 : UtxoSet) (b : BlockData)
    (recs : List (OutPoint × UTXOEntry))
    (h : connectBlockUtxo S b = some (S2, recs)) :
    disconnectBlockUtxo S2 b recs = S := by
  simp only [connectBlockUtxo, apply] at h
  cases hs : spendAll S b.spends with
  | none => rw [hs] at h; cases h
  | some pr =>
    obtain ⟨S1, recs1⟩ := pr
    rw [hs] at h
    dsimp only at h
    cases ha : addAll S1 b.creates with
    | none => rw [ha] at h; cases h
    | some S3 =>
      rw [ha] at h
      simp only [Option.some.injEq, Prod.mk.injEq] at h
      obtain ⟨h1, h2⟩ := h
      subst h1
      subst h2
      simp only [disconnectBlockUtxo, undo]
      rw [addAll_foldr_erase _ _ _ ha, spendAll_foldr_insert _ _ _ _ hs]

theorem connect_disconnect_roundtrip_witness :
    disconnectBlockUtxo utxo1 block1 [((1, 0), entry0)] = utxo0 :=
  connect_disconnect_roundtrip utxo0 utxo1 block1 [((1, 0), entry0)] rfl

theorem spendAll_isSome :
    ∀ (spends : List OutPoint) (S : UtxoSet),
    (spendAll S spends).isSome ↔
      spends.Nodup ∧ ∀ op ∈ spends, (S op).isSome := by
  intro spends
  induction spends with
  | nil => intro S; simp [spendAll]
  | cons op rest ih =>
    intro S
    simp only [spendAll]
    cases hS : S op with
    | none => simp [hS]
    | some e =>
      cases hrec : spendAll (utxoErase op S) rest with
      | none =>
        have hiff := ih (utxoErase op S)
        rw [hrec] at hiff
        simp only [Option.isSome_none, Bool.false_eq_true, false_iff] at hiff
        simp only [Option.isSome_none, Bool.false_eq_true, false_iff,
          List.nodup_cons, List.mem_cons]
        intro hcon
        obtain ⟨⟨hnm, hnd⟩, hall⟩ := hcon
        refine hiff ⟨hnd, ?_⟩
        intro p hp
        rw [utxoErase_eval]
        have hne : p ≠ op := fun hc => hnm (hc ▸ hp)
        simp only [hne, if_false]
        exact hall p (Or.inr hp)
      | some pr =>
        obtain ⟨S1, recs1⟩ := pr
        have hiff := ih (utxoErase op S)
        rw [hrec] at hiff
        simp only [Option.isSome_some, true_iff] at hiff
        obtain ⟨hnd, hall⟩ := hiff
        simp only [Option.isSome_some, true_iff, List.nodup_cons, List.mem_cons]
        refine ⟨⟨?_, hnd⟩, ?_⟩
        · intro hmem
          have := hall op hmem
          rw [utxoErase_eval] at this
          simp at this
        · intro p hp
          rcases hp with hp | hp
          · subst hp; simp [hS]
          · have := hall p hp
            rw [utxoErase_eval] at this
            by_cases hpe : p = op
            · subst hpe; simp at this
            · simpa [hpe] using this

theorem spendAll_eval :
    ∀ (spends : List OutPoint) (S S2 : UtxoSet)
      (recs : List (OutPoint × UTXOEntry)),
    spendAll S spends = some (S2, recs) →
    ∀ p, S2 p = if p ∈ spends then none else S p := by
  intro spends
  induction spends with
  | nil =>
    intro S S2 recs h p
    simp only [spendAll, Option.some.injEq, Prod.mk.injEq] at h
    simp [← h.1]
  | cons op rest ih =>
    intro S S2 recs h p
    simp only [spendAll] at h
    cases hS : S op with
    | none => rw [hS] at h; cases h
    | some e =>
      rw [hS] at h
      cases hrec : spendAll (utxoErase op S) rest with
      | none => rw [hrec] at h; cases h
      | some pr =>
        obtain ⟨S1, recs1⟩ := pr
        rw [hrec] at h
        simp only [Option.some.injEq, Prod.mk.injEq] at h
        obtain ⟨h1, h2⟩ := h
        subst h1
        have := ih _ _ _ hrec p
        rw [utxoErase_eval] at this
        by_cases hpr : p ∈ rest
        · simp [this, hpr]
        · by_cases hpo : p = op
          · subst hpo; simp [this, hpr]
          · simp [this, hpr, hpo]

theorem addAll_isSome :
    ∀ (adds : List (OutPoint × UTXOEntry)) (S : UtxoSet),
    (addAll S adds).isSome ↔
      (adds.map Prod.fst).Nodup ∧ ∀ pe ∈ adds, S pe.1 = none := by
  intro adds
  induction adds with
  | nil => intro S; simp [addAll]
  | cons pe rest ih =>
    intro S
    simp only [addAll]
    cases hS : S pe.1 with
    | some e =>
      simp only [Option.isSome_none, Bool.false_eq_true, false_iff]
      intro hcon
      have := hcon.2 pe (List.mem_cons_self pe rest)
      rw [hS] at this
      cases this
    | none =>
      have hiff := ih (utxoInsert pe.1 pe.2 S)
      rw [hiff]
      simp only [List.map_cons, List.nodup_cons, List.mem_map, List.mem_cons]
      constructor
      · rintro ⟨hnd, hall⟩
        refine ⟨⟨?_, hnd⟩, ?_⟩
        · rintro ⟨qe, hqe, hq1⟩
          have := hall qe hqe
          rw [utxoInsert_eval, hq1] at this
          simp at this
        · rintro qe (hq | hq)
          · subst hq; exact hS
          · have := hall qe hq
            rw [utxoInsert_eval] at this
            by_cases hq1 : qe.1 = pe.1
            · rw [hq1] at this; simp at this
            · simpa [hq1] using this
      · rintro ⟨⟨hnm, hnd⟩, hall⟩
        refine ⟨hnd, ?_⟩
        intro qe hq
        rw [utxoInsert_eval]
        have hq1 : qe.1 ≠ pe.1 := fun hc => hnm ⟨qe, hq, hc⟩
        simp only [hq1, if_false]
        exact hall qe (Or.inr hq)

theorem lookupKey_some_mem :
    ∀ (l : List (OutPoint × UTXOEntry)) (p : OutPoint) (e : UTXOEntry),
    lookupKey p l = some e → ∃ qe ∈ l, qe.1 = p ∧ qe.2 = e := by
  intro l
  induction l with
  | nil => intro p e h; cases h
  | cons pe rest ih =>
    intro p e h
    simp only [lookupKey] at h
    by_cases hp : pe.1 = p
    · rw [if_pos hp] at h
      exact ⟨pe, List.mem_cons_self pe rest, hp, by injection h⟩
    · rw [if_neg hp] at h
      obtain ⟨qe, hq, h1, h2⟩ := ih p e h
      exact ⟨qe, List.mem_cons_of_mem pe hq, h1, h2⟩

theorem addAll_eval :
    ∀ (adds : List (OutPoint × UTXOEntry)) (S S2 : UtxoSet),
    addAll S adds = some S2 →
    ∀ p, S2 p = match lookupKey p adds with
      | some e => some e
      | none => S p := by
  intro adds
  induction adds with
  | nil =>
    intro S S2 h p
    simp only [addAll, Option.some.injEq] at h
    simp [← h, lookupKey]
  | cons pe rest ih =>
    intro S S2 h p
    simp only [addAll] at h
    cases hS : S pe.1 with
    | some e => rw [hS] at h; cases h
    | none =>
      rw [hS] at h
      dsimp only at h
      have heval := ih _ _ h p
      have hrest : ∀ qe ∈ rest, (utxoInsert pe.1 pe.2 S) qe.1 = none := by
        have := (addAll_isSome rest (utxoInsert pe.1 pe.2 S)).mp (by rw [h]; rfl)
        exact this.2
      simp only [lookupKey]
      by_cases hp : pe.1 = p
      · rw [if_pos hp]
        have hnone : lookupKey p rest = none := by
          cases hlk : lookupKey p rest with
          | none => rfl
          | some e2 =>
            obtain ⟨qe, hq, hq1, _⟩ := lookupKey_some_mem rest p e2 hlk
            have := hrest qe hq
            rw [utxoInsert_eval, hq1, hp] at this
            simp at this
        rw [hnone] at heval
        rw [heval, utxoInsert_eval, ← hp]
        simp
      · rw [if_neg hp]
        rw [heval]
        cases hlk : lookupKey p rest with
        | some e2 => rfl
        | none =>
          rw [utxoInsert_eval]
          have : p ≠ pe.1 := fun hc => hp hc.symm
          simp [this]

/-- C2: `apply` is atomic — it succeeds iff every spend finds a live,
not-already-spent entry (the spend list has no duplicates and every
outpoint is live) and every addition avoids a duplicate-output collision
(created keys are pairwise distinct and each is either absent or freed by a
spend of this very batch); on success the whole batch is committed (every
created key maps to its new entry, every spent key is gone, everything else
is untouched); on any missing input or collision it returns `none`, the
invalid-block condition, and nothing is committed. -/
theorem apply_atomic (S : UtxoSet) (spends : List OutPoint)
    (adds : List (OutPoint × UTXOEntry)) :
    ((apply S spends adds).isSome ↔
      (spends.Nodup ∧ (∀ op ∈ spends, (S op).isSome) ∧
       (adds.map Prod.fst).Nodup ∧
       ∀ pe ∈ adds, S pe.1 = none ∨ pe.1 ∈ spends)) ∧
    ∀ S2 recs, apply S spends adds = some (S2, recs) →
      ∀ p, S2 p = match lookupKey p adds with
        | some e => some e
        | none => if p ∈ spends then none else S p := by
  constructor
  · simp only [apply]
    cases hs : spendAll S spends with
    | none =>
      have := (spendAll_isSome spends S)
      rw [hs] at this
      simp only [Option.isSome_none, Bool.false_eq_true, false_iff] at this
      simp only [Option.isSome_none, Bool.false_eq_true, false_iff]
      intro hcon
      exact this ⟨hcon.1, hcon.2.1⟩
    | some pr =>
      obtain ⟨S1, recs1⟩ := pr
      have hsp := (spendAll_isSome spends S)
      rw [hs] at hsp
      simp only [Option.isSome_some, true_iff] at hsp
      have hmid := spendAll_eval spends S S1 recs1 hs
      dsimp only
      have hadd := addAll_isSome adds S1
      constructor
      · intro hok
        cases ha : addAll S1 adds with
        | none => rw [ha] at hok; simp at hok
        | some S3 =>
          rw [ha] at hadd
          simp only [Option.isSome_some, true_iff] at hadd
          refine ⟨hsp.1, hsp.2, hadd.1, ?_⟩
          intro pe hpe
          have := hadd.2 pe hpe
          rw [hmid pe.1] at this
          by_cases hin : pe.1 ∈ spends
          · exact Or.inr hin
          · rw [if_neg hin] at this; exact Or.inl this
      · rintro ⟨_, _, hnd, hall⟩
        have : (addAll S1 adds).isSome := by
          rw [hadd]
          refine ⟨hnd, ?_⟩
          intro pe hpe
          rw [hmid pe.1]
          rcases hall pe hpe with hfree | hin
          · by_cases hin : pe.1 ∈ spends
            · simp [hin]
            · simp [hin, hfree]
          · simp [hin]
        cases ha : addAll S1 adds with
        | none => rw [ha] at this; simp at this
        | some S3 => rfl
  · intro S2 recs h p
    simp only [apply] at h
    cases hs : spendAll S spends with
    | none => rw [hs] at h; cases h
    | some pr =>
      obtain ⟨S1, recs1⟩ := pr
      rw [hs] at h
      dsimp only at h
      cases ha : addAll S1 adds with
      | none => rw [ha] at h; cases h
      | some S3 =>
        rw [ha] at h
        simp only [Option.some.injEq, Prod.mk.injEq] at h
        obtain ⟨h1, _⟩ := h
        rw [← h1]
        have := addAll_eval adds S1 S3 ha p
        rw [this, spendAll_eval spends S S1 recs1 hs p]

/-! ### Theorems: Part II — Script Verifier (C6) and Mempool (C5) -/

/-- C6: for every unlocking script, locking script, signed digest and
flags — malformed byte strings included — `verify` returns a definite
accept-or-reject outcome carrying a reason code, and two invocations on
identical arguments return identical results; `verify` is a total pure
function of its four arguments (determinism and absence of I/O hold by
construction of the functional model). -/
theorem verify_definite_deterministic (unlocking locking : List Nat)
    (digest : Nat) (f : Flags) :
    (verify unlocking locking digest f = verify unlocking locking digest f) ∧
    (verify unlocking locking digest f = .accept ∨
      ∃ c, verify unlocking locking digest f = .reject c) := by
  refine ⟨rfl, ?_⟩
  cases h : verify unlocking locking digest f with
  | accept => exact Or.inl rfl
  | reject c => exact Or.inr ⟨c, rfl⟩

/-- C5 counterexample: a replacement that signals, conflicts, and pays the
absolute additional-fee threshold (evicted fees plus its own bandwidth) but
has a lower total fee rate than the original is rejected and the original
stays — the claim's acceptance condition omits the strictly-higher-fee-rate
requirement of §4.6. -/
theorem tryAdd_absoluteFee_alone_insufficient :
    signalsRBF tOld = true ∧
    conflictsWith tNew tOld = true ∧
    tOld.fee + minRelayFeeRate * tNew.size ≤ tNew.fee ∧
    (tryAdd [tOld] tNew).1 = .rejectedLowFeeRate ∧
    (tryAdd [tOld] tNew).2 = [tOld] := by decide

/-- C5 (amended): a conflicting replacement with a lower total fee rate
than an existing entry is rejected with the pool unchanged; a replacement
whose conflict set is an opt-in (sequence-signaling) entry, whose fee rate
is strictly higher, and whose absolute fee covers the evicted entry's fee
plus the replacement's own bandwidth, is accepted, the evicted entry
removed and the replacement inserted. -/
theorem tryAdd_rbf (pool : List MempoolTx) (told tnew : MempoolTx) :
    (told ∈ pool → conflictsWith tnew told = true →
      tnew.fee * told.size < told.fee * tnew.size →
      (tryAdd pool tnew).1 ≠ .accepted ∧ (tryAdd pool tnew).2 = pool) ∧
    (pool.filter (fun e => conflictsWith tnew e) = [told] →
      signalsRBF told = true →
      feeRateHigher tnew told = true →
      told.fee + minRelayFeeRate * tnew.size ≤ tnew.fee →
      (tryAdd pool tnew).1 = .accepted ∧
      told ∉ (tryAdd pool tnew).2 ∧
      tnew ∈ (tryAdd pool tnew).2) := by
  constructor
  · intro hmem hconf hlow
    have hcm : told ∈ pool.filter (fun e => conflictsWith tnew e) :=
      List.mem_filter.mpr ⟨hmem, hconf⟩
    have hne : ¬ (pool.filter (fun e => conflictsWith tnew e)).isEmpty := by
      intro he
      rw [List.isEmpty_iff] at he
      rw [he] at hcm
      cases hcm
    have hnall : ¬ (pool.filter (fun e => conflictsWith tnew e)).all
        (fun e => feeRateHigher tnew e) = true := by
      intro hall
      have := List.all_eq_true.mp hall told hcm
      simp only [feeRateHigher, decide_eq_true_eq] at this
      omega
    simp only [tryAdd]
    by_cases h1 : tnew.fee < minRelayFeeRate * tnew.size
    · rw [if_pos h1]; exact ⟨by simp, rfl⟩
    rw [if_neg h1]
    by_cases h2 : (pool.filter (fun e => conflictsWith tnew e)).isEmpty = true
    · exact absurd h2 hne
    rw [if_neg h2]
    by_cases h3 : (! (pool.filter (fun e => conflictsWith tnew e)).all
        (fun e => signalsRBF e)) = true
    · rw [if_pos h3]; exact ⟨by simp, rfl⟩
    rw [if_neg h3]
    have h4 : (! (pool.filter (fun e => conflictsWith tnew e)).all
        (fun e => feeRateHigher tnew e)) = true := by
      cases hb : (pool.filter (fun e => conflictsWith tnew e)).all
          (fun e => feeRateHigher tnew e) with
      | true => exact absurd hb hnall
      | false => rfl
    rw [if_pos h4]
    exact ⟨by simp, rfl⟩
  · intro hfil hsig hrate habs
    have hner : told ≠ tnew := by
      intro he
      rw [he] at hrate
      simp only [feeRateHigher, decide_eq_true_eq] at hrate
      omega
    have hminfee : ¬ tnew.fee < minRelayFeeRate * tnew.size := by omega
    simp only [tryAdd, hfil]
    rw [if_neg hminfee]
    rw [if_neg (by simp : ¬ ([told].isEmpty = true))]
    rw [if_neg (by rw [List.all_cons, List.all_nil, hsig]; simp :
      ¬ ((! [told].all fun e => signalsRBF e) = true))]
    rw [if_neg (by rw [List.all_cons, List.all_nil, hrate]; simp :
      ¬ ((! [told].all fun e => feeRateHigher tnew e) = true))]
    rw [if_neg (by
      rw [List.map_cons, List.map_nil, List.sum_cons, List.sum_nil]
      omega :
      ¬ (tnew.fee < (List.map (fun e => e.fee) [told]).sum +
           minRelayFeeRate * tnew.size))]
    refine ⟨rfl, ?_, ?_⟩
    · intro hmem
      rcases List.mem_append.mp hmem with hmem | hmem
      · have := (List.mem_filter.mp hmem).2
        have hct : conflictsWith tnew told = true := by
          have : told ∈ pool.filter (fun e => conflictsWith tnew e) := by
            rw [hfil]; exact List.mem_singleton.mpr rfl
          exact (List.mem_filter.mp this).2
        simp [hct] at this
      · exact hner (List.mem_singleton.mp hmem)
    · exact List.mem_append.mpr (Or.inr (List.mem_singleton.mpr rfl))

theorem tryAdd_rbf_witness :
    (tryAdd [tOld] tRep).1 = .accepted ∧
    tOld ∉ (tryAdd [tOld] tRep).2 ∧
    tRep ∈ (tryAdd [tOld] tRep).2 :=
  (tryAdd_rbf [tOld] tOld tRep).2 (by decide) (by decide) (by decide) (by decide)

/-! ### Theorems: Part II — Chainstate Manager (C3, C4, C7) -/

theorem lookupNode_mem :
    ∀ (index : List NodeInfo) (id : Nat) (n : NodeInfo),
    lookupNode index id = some n → n ∈ index ∧ n.data.id = id := by
  intro index
  induction index with
  | nil => intro id n h; cases h
  | cons m rest ih =>
    intro id n h
    simp only [lookupNode] at h
    by_cases hm : m.data.id = id
    · rw [if_pos hm] at h
      injection h with h
      subst h
      exact ⟨List.mem_cons_self m rest, hm⟩
    · rw [if_neg hm] at h
      obtain ⟨h1, h2⟩ := ih id n h
      exact ⟨List.mem_cons_of_mem m h1, h2⟩

theorem lookupNode_self :
    ∀ (index : List NodeInfo) (n : NodeInfo),
    (index.map (fun m => m.data.id)).Nodup → n ∈ index →
    lookupNode index n.data.id = some n := by
  intro index
  induction index with
  | nil => intro n _ h; cases h
  | cons m rest ih =>
    intro n hnd hmem
    simp only [List.map_cons, List.nodup_cons] at hnd
    rcases List.mem_cons.mp hmem with he | hm
    · subst he; simp [lookupNode]
    · simp only [lookupNode]
      by_cases hid : m.data.id = n.data.id
      · exfalso
        apply hnd.1
        rw [hid]
        exact List.mem_map_of_mem (fun m => m.data.id) hm
      · rw [if_neg hid]
        exact ih n hnd.2 hm

theorem lookupNode_none_notin :
    ∀ (index : List NodeInfo) (id : Nat),
    lookupNode index id = none → ∀ n ∈ index, n.data.id ≠ id := by
  intro index
  induction index with
  | nil => intro id _ n hn; cases hn
  | cons m rest ih =>
    intro id h n hn
    simp only [lookupNode] at h
    by_cases hm : m.data.id = id
    · rw [if_pos hm] at h; cases h
    · rw [if_neg hm] at h
      rcases List.mem_cons.mp hn with he | hmem
      · subst he; exact hm
      · exact ih id h n hmem

theorem lookupNode_append_some :
    ∀ (index ex : List NodeInfo) (id : Nat) (n : NodeInfo),
    lookupNode index id = some n → lookupNode (index ++ ex) id = some n := by
  intro index ex
  induction index with
  | nil => intro id n h; cases h
  | cons m rest ih =>
    intro id n h
    simp only [lookupNode] at h ⊢
    by_cases hm : m.data.id = id
    · rw [if_pos hm] at h ⊢; exact h
    · rw [if_neg hm] at h ⊢; exact ih id n h

theorem pathAux_append :
    ∀ (fuel : Nat) (index ex : List NodeInfo) (id : Nat) (l : List Nat),
    pathAux index fuel id = some l → pathAux (index ++ ex) fuel id = some l := by
  intro fuel
  induction fuel with
  | zero => intro _ _ _ _ h; cases h
  | succ f ih =>
    intro index ex id l h
    simp only [pathAux] at h ⊢
    cases hlk : lookupNode index id with
    | none => rw [hlk] at h; cases h
    | some n =>
      rw [hlk] at h
      rw [lookupNode_append_some index ex id n hlk]
      dsimp only at h ⊢
      by_cases hh : n.height = 0
      · rw [if_pos hh] at h ⊢; exact h
      · rw [if_neg hh] at h ⊢
        cases hp : pathAux index f n.data.prev with
        | none => rw [hp] at h; cases h
        | some l1 =>
          rw [hp] at h
          rw [ih index ex n.data.prev l1 hp]
          exact h

theorem pathTo_append_some (index ex : List NodeInfo) (id : Nat) (l : List Nat)
    (h : pathTo index id = some l) : pathTo (index ++ ex) id = some l := by
  unfold pathTo at h ⊢
  cases hlk : lookupNode index id with
  | none => rw [hlk] at h; cases h
  | some n =>
    rw [hlk] at h
    rw [lookupNode_append_some index ex id n hlk]
    exact pathAux_append (n.height + 1) index ex id l h

theorem lookupNode_map (f : NodeInfo → NodeInfo) (hf : ∀ n, (f n).data = n.data) :
    ∀ (index : List NodeInfo) (id : Nat),
    lookupNode (index.map f) id = (lookupNode index id).map f := by
  intro index
  induction index with
  | nil => intro id; rfl
  | cons m rest ih =>
    intro id
    simp only [List.map_cons, lookupNode, hf m]
    by_cases hm : m.data.id = id
    · rw [if_pos hm, if_pos hm]; rfl
    · rw [if_neg hm, if_neg hm]; exact ih id

theorem pathAux_map (f : NodeInfo → NodeInfo) (hf : ∀ n, (f n).data = n.data)
    (hht : ∀ n, (f n).height = n.height) :
    ∀ (fuel : Nat) (index : List NodeInfo) (id : Nat),
    pathAux (index.map f) fuel id = pathAux index fuel id := by
  intro fuel
  induction fuel with
  | zero => intro index id; rfl
  | succ fl ih =>
    intro index id
    simp only [pathAux, lookupNode_map f hf index id]
    cases hlk : lookupNode index id with
    | none => rfl
    | some n =>
      simp only [Option.map_some']
      rw [hht n, hf n]
      by_cases h0 : n.height = 0
      · rw [if_pos h0, if_pos h0]
      · rw [if_neg h0, if_neg h0, ih index n.data.prev]

theorem markNode_data (index : List NodeInfo) (r : Nat) (n : NodeInfo) :
    (markNode index r n).data = n.data := by
  unfold markNode; split <;> rfl

theorem markNode_height (index : List NodeInfo) (r : Nat) (n : NodeInfo) :
    (markNode index r n).height = n.height := by
  unfold markNode; split <;> rfl

theorem markNode_chainWork (index : List NodeInfo) (r : Nat) (n : NodeInfo) :
    (markNode index r n).chainWork = n.chainWork := by
  unfold markNode; split <;> rfl

theorem markNode_seq (index : List NodeInfo) (r : Nat) (n : NodeInfo) :
    (markNode index r n).seq = n.seq := by
  unfold markNode; split <;> rfl

theorem lookupNode_mark (index : List NodeInfo) (r : Nat) (id : Nat) :
    lookupNode (markInvalidFrom index r) id =
      (lookupNode index id).map (markNode index r) :=
  lookupNode_map (markNode index r) (markNode_data index r) index id

theorem pathTo_mark (index : List NodeInfo) (r : Nat) (id : Nat) :
    pathTo (markInvalidFrom index r) id = pathTo index id := by
  unfold pathTo markInvalidFrom
  rw [lookupNode_map (markNode index r) (markNode_data index r) index id]
  cases hlk : lookupNode index id with
  | none => rfl
  | some n =>
    simp only [Option.map_some']
    rw [markNode_height index r n]
    exact pathAux_map (markNode index r) (markNode_data index r)
      (markNode_height index r) (n.height + 1) index id

theorem countP_lt_of_witness {α : Type} :
    ∀ (l : List α) (p q : α → Bool),
    (∀ a ∈ l, p a = true → q a = true) →
    ∀ c ∈ l, q c = true → p c = false →
    l.countP p < l.countP q := by
  intro l p q
  induction l with
  | nil => intro _ c hc; cases hc
  | cons a rest ih =>
    intro hmono c hc hqc hpc
    rw [List.countP_cons, List.countP_cons]
    have hmono2 : ∀ x ∈ rest, p x = true → q x = true :=
      fun x hx => hmono x (List.mem_cons_of_mem a hx)
    rcases List.mem_cons.mp hc with he | hm
    · subst he
      have h1 : rest.countP p ≤ rest.countP q := List.countP_mono_left hmono2
      rw [hpc, hqc]
      simp only [Bool.false_eq_true, if_false, if_true]
      omega
    · have h1 := ih hmono2 c hm hqc hpc
      have h2 : (if p a = true then 1 else 0) ≤ (if q a = true then 1 else 0) := by
        by_cases hpa : p a = true
        · rw [if_pos hpa, if_pos (hmono a (List.mem_cons_self a rest) hpa)]
        · rw [if_neg hpa]; omega
      omega

theorem validCount_eq_countP (index : List NodeInfo) :
    validCount index = index.countP (fun n => ! n.invalid) := by
  unfold validCount
  rw [List.countP_eq_length_filter]

theorem validCount_mark_lt (index : List NodeInfo) (r : Nat) (c : NodeInfo)
    (hc : c ∈ index) (hv : c.invalid = false)
    (hin : inSubtree index r c.data.id = true) :
    validCount (markInvalidFrom index r) < validCount index := by
  rw [validCount_eq_countP, validCount_eq_countP]
  unfold markInvalidFrom
  rw [List.countP_map]
  apply countP_lt_of_witness index _ _ ?_ c hc ?_ ?_
  · intro a _ hpa
    simp only [Function.comp] at hpa
    unfold markNode at hpa
    by_cases hsub : inSubtree index r a.data.id = true
    · rw [if_pos hsub] at hpa; simp at hpa
    · rw [if_neg hsub] at hpa; simpa using hpa
  · simp [hv]
  · simp only [Function.comp]
    unfold markNode
    rw [if_pos hin]
    rfl

theorem validCount_pos (index : List NodeInfo) (n : NodeInfo)
    (hn : n ∈ index) (hv : n.invalid = false) : 1 ≤ validCount index := by
  unfold validCount
  have : n ∈ index.filter (fun m => ! m.invalid) :=
    List.mem_filter.mpr ⟨hn, by simp [hv]⟩
  cases hfil : index.filter (fun m => ! m.invalid) with
  | nil => rw [hfil] at this; cases this
  | cons a rest => simp [hfil]

theorem betterCand_false_iff (a b : NodeInfo) :
    betterCand a b = false ↔
      a.chainWork < b.chainWork ∨ (a.chainWork = b.chainWork ∧ b.seq ≤ a.seq) := by
  simp only [betterCand, Bool.or_eq_false_iff, Bool.and_eq_false_iff,
    decide_eq_false_iff_not, Nat.not_lt, beq_eq_false_iff_ne, ne_eq]
  omega

theorem betterCand_true_iff (a b : NodeInfo) :
    betterCand a b = true ↔
      b.chainWork < a.chainWork ∨ (a.chainWork = b.chainWork ∧ a.seq < b.seq) := by
  simp only [betterCand, Bool.or_eq_true, Bool.and_eq_true, decide_eq_true_eq,
    beq_iff_eq]

theorem betterCand_irrefl (a : NodeInfo) : betterCand a a = false := by
  rw [betterCand_false_iff]
  omega

theorem notBetter_trans (a b c : NodeInfo)
    (h1 : betterCand a b = false) (h2 : betterCand b c = false) :
    betterCand a c = false := by
  rw [betterCand_false_iff] at h1 h2 ⊢
  omega

theorem better_notBetter (n b c : NodeInfo)
    (h1 : betterCand n b = true) (h2 : betterCand n c = false) :
    betterCand b c = false := by
  rw [betterCand_true_iff] at h1
  rw [betterCand_false_iff] at h2 ⊢
  omega

theorem candStep_invalid (acc : Option NodeInfo) (n : NodeInfo)
    (h : n.invalid = true) : candStep acc n = acc := by
  unfold candStep; rw [if_pos h]

theorem candStep_valid_none (n : NodeInfo) (h : n.invalid = false) :
    candStep none n = some n := by
  unfold candStep; simp [h]

theorem candStep_valid_better (b : NodeInfo) (n : NodeInfo)
    (h : n.invalid = false) (hb : betterCand n b = true) :
    candStep (some b) n = some n := by
  unfold candStep; simp [h, hb]

theorem candStep_valid_notBetter (b : NodeInfo) (n : NodeInfo)
    (h : n.invalid = false) (hb : betterCand n b = false) :
    candStep (some b) n = some b := by
  unfold candStep; simp [h, hb]

theorem candStep_cases (acc : Option NodeInfo) (n : NodeInfo) :
    candStep acc n = acc ∨ candStep acc n = some n := by
  by_cases hinv : n.invalid = true
  · exact Or.inl (candStep_invalid acc n hinv)
  · have hv : n.invalid = false := by simpa using hinv
    cases acc with
    | none => exact Or.inr (candStep_valid_none n hv)
    | some b =>
      cases hb : betterCand n b with
      | true => exact Or.inr (candStep_valid_better b n hv hb)
      | false => exact Or.inl (candStep_valid_notBetter b n hv hb)

theorem foldl_candStep_mem :
    ∀ (l : List NodeInfo) (acc : Option NodeInfo) (c : NodeInfo),
    l.foldl candStep acc = some c →
    acc = some c ∨ (c ∈ l ∧ c.invalid = false) := by
  intro l
  induction l with
  | nil => intro acc c h; exact Or.inl h
  | cons n rest ih =>
    intro acc c h
    rw [List.foldl_cons] at h
    rcases ih _ c h with hacc | ⟨hm, hv⟩
    · by_cases hinv : n.invalid = true
      · rw [candStep_invalid acc n hinv] at hacc
        exact Or.inl hacc
      · have hnv : n.invalid = false := by simpa using hinv
        cases acc with
        | none =>
          rw [candStep_valid_none n hnv] at hacc
          injection hacc with he
          subst he
          exact Or.inr ⟨List.mem_cons_self n rest, hnv⟩
        | some b =>
          cases hb : betterCand n b with
          | true =>
            rw [candStep_valid_better b n hnv hb] at hacc
            injection hacc with he
            subst he
            exact Or.inr ⟨List.mem_cons_self n rest, hnv⟩
          | false =>
            rw [candStep_valid_notBetter b n hnv hb] at hacc
            exact Or.inl hacc
    · exact Or.inr ⟨List.mem_cons_of_mem n hm, hv⟩

theorem foldl_candStep_dominates :
    ∀ (l : List NodeInfo) (acc : Option NodeInfo) (c : NodeInfo),
    l.foldl candStep acc = some c →
    (∀ b, acc = some b → betterCand b c = false) ∧
    (∀ n ∈ l, n.invalid = false → betterCand n c = false) := by
  intro l
  induction l with
  | nil =>
    intro acc c h
    simp only [List.foldl_nil] at h
    subst h
    refine ⟨?_, ?_⟩
    · intro b hb
      injection hb with he
      subst he
      exact betterCand_irrefl c
    · intro n hn
      cases hn
  | cons n rest ih =>
    intro acc c h
    rw [List.foldl_cons] at h
    obtain ⟨ih1, ih2⟩ := ih (candStep acc n) c h
    by_cases hinv : n.invalid = true
    · have hstep : candStep acc n = acc := candStep_invalid acc n hinv
      refine ⟨?_, ?_⟩
      · intro b hb
        exact ih1 b (by rw [hstep, hb])
      · intro m hm hmv
        rcases List.mem_cons.mp hm with he | hm2
        · subst he; rw [hmv] at hinv; cases hinv
        · exact ih2 m hm2 hmv
    · have hnv : n.invalid = false := by simpa using hinv
      refine ⟨?_, ?_⟩
      · intro b hb
        subst hb
        cases hnb : betterCand n b with
        | true =>
          have h1 := ih1 n (candStep_valid_better b n hnv hnb)
          exact better_notBetter n b c hnb h1
        | false =>
          exact ih1 b (candStep_valid_notBetter b n hnv hnb)
      · intro m hm hmv
        rcases List.mem_cons.mp hm with he | hm2
        · subst he
          cases hacc : acc with
          | none =>
            exact ih1 m (by rw [hacc]; exact candStep_valid_none m hmv)
          | some b =>
            cases hnb : betterCand m b with
            | true =>
              exact ih1 m (by rw [hacc]; exact candStep_valid_better b m hmv hnb)
            | false =>
              have h1 := ih1 b (by rw [hacc]; exact candStep_valid_notBetter b m hmv hnb)
              exact notBetter_trans m b c hnb h1
        · exact ih2 m hm2 hmv

theorem candStep_isSome (acc : Option NodeInfo) (n : NodeInfo) :
    acc.isSome = true → (candStep acc n).isSome = true := by
  intro h
  rcases candStep_cases acc n with he | he <;> rw [he]
  · exact h
  · rfl

theorem foldl_candStep_isSome :
    ∀ (l : List NodeInfo) (acc : Option NodeInfo),
    acc.isSome = true → (l.foldl candStep acc).isSome = true := by
  intro l
  induction l with
  | nil => intro acc h; exact h
  | cons n rest ih =>
    intro acc h
    rw [List.foldl_cons]
    exact ih (candStep acc n) (candStep_isSome acc n h)

theorem mostWorkCandidate_isSome :
    ∀ (l : List NodeInfo) (acc : Option NodeInfo) (n : NodeInfo),
    n ∈ l → n.invalid = false → (l.foldl candStep acc).isSome = true := by
  intro l
  induction l with
  | nil => intro acc n hn; cases hn
  | cons m rest ih =>
    intro acc n hn hv
    rw [List.foldl_cons]
    rcases List.mem_cons.mp hn with he | hm2
    · subst he
      apply foldl_candStep_isSome
      cases acc with
      | none => rw [candStep_valid_none n hv]; rfl
      | some b =>
        cases hb : betterCand n b with
        | true => rw [candStep_valid_better b n hv hb]; rfl
        | false => rw [candStep_valid_notBetter b n hv hb]; rfl
    · exact ih (candStep acc m) n hm2 hv

theorem mostWorkCandidate_spec (index : List NodeInfo) (c : NodeInfo)
    (h : mostWorkCandidate index = some c) :
    c ∈ index ∧ c.invalid = false ∧
      ∀ n ∈ index, n.invalid = false → betterCand n c = false := by
  have h1 := foldl_candStep_mem index none c h
  have h2 := (foldl_candStep_dominates index none c h).2
  rcases h1 with h1 | ⟨hm, hv⟩
  · cases h1
  · exact ⟨hm, hv, h2⟩

theorem parentOk_parent (index : List NodeInfo) (n : NodeInfo)
    (h : parentOk index n = true) (hh : n.height ≠ 0) :
    ∃ p, lookupNode index n.data.prev = some p ∧ p.height + 1 = n.height ∧
      n.chainWork = p.chainWork + n.data.work ∧ 0 < n.data.work := by
  unfold parentOk at h
  rw [if_neg hh] at h
  cases hlk : lookupNode index n.data.prev with
  | none => rw [hlk] at h; cases h
  | some p =>
    rw [hlk] at h
    simp only [Bool.and_eq_true, beq_iff_eq, decide_eq_true_eq] at h
    exact ⟨p, rfl, h.1.1, h.1.2, h.2⟩

theorem pathAux_spec :
    ∀ (fuel : Nat) (index : List NodeInfo) (id : Nat) (n : NodeInfo)
      (l : List Nat),
    (∀ m ∈ index, parentOk index m = true) →
    lookupNode index id = some n → pathAux index fuel id = some l →
    l.length = n.height + 1 ∧
    ∀ i e, l.get? i = some e →
      ∃ m, lookupNode index e = some m ∧ m.height = i ∧ m.data.id = e := by
  intro fuel
  induction fuel with
  | zero => intro index id n l _ _ h; cases h
  | succ f ih =>
    intro index id n l hall hlk h
    simp only [pathAux] at h
    rw [hlk] at h
    dsimp only at h
    by_cases h0 : n.height = 0
    · rw [if_pos h0] at h
      injection h with he
      subst he
      refine ⟨by simp [h0], ?_⟩
      intro i e hie
      cases i with
      | zero =>
        simp only [List.get?] at hie
        injection hie with he2
        subst he2
        exact ⟨n, hlk, h0, (lookupNode_mem index id n hlk).2⟩
      | succ j => simp only [List.get?] at hie; cases hie
    · rw [if_neg h0] at h
      obtain ⟨p, hplk, hph, _, _⟩ :=
        parentOk_parent index n (hall n (lookupNode_mem index id n hlk).1) h0
      cases hp : pathAux index f n.data.prev with
      | none => rw [hp] at h; cases h
      | some l1 =>
        rw [hp] at h
        injection h with he
        subst he
        obtain ⟨hlen1, hpos1⟩ := ih index n.data.prev p l1 hall hplk hp
        have hlen : (l1 ++ [id]).length = n.height + 1 := by
          simp [hlen1]
          omega
        refine ⟨hlen, ?_⟩
        intro i e hie
        by_cases hi : i < l1.length
        · rw [List.get?_append hi] at hie
          exact hpos1 i e hie
        · have hge : l1.length ≤ i := Nat.le_of_not_lt hi
          rw [List.get?_append_right hge] at hie
          cases hij : i - l1.length with
          | zero =>
            rw [hij] at hie
            simp only [List.get?] at hie
            injection hie with he2
            subst he2
            refine ⟨n, hlk, ?_, (lookupNode_mem index id n hlk).2⟩
            omega
          | succ j =>
            rw [hij] at hie
            simp only [List.get?] at hie
            cases hie

theorem pathAux_total :
    ∀ (fuel : Nat) (index : List NodeInfo) (id : Nat) (n : NodeInfo),
    (∀ m ∈ index, parentOk index m = true) →
    lookupNode index id = some n → n.height < fuel →
    (pathAux index fuel id).isSome = true := by
  intro fuel
  induction fuel with
  | zero => intro index id n _ _ hf; omega
  | succ f ih =>
    intro index id n hall hlk hf
    simp only [pathAux]
    rw [hlk]
    dsimp only
    by_cases h0 : n.height = 0
    · rw [if_pos h0]; rfl
    · rw [if_neg h0]
      obtain ⟨p, hplk, hph, _, _⟩ :=
        parentOk_parent index n (hall n (lookupNode_mem index id n hlk).1) h0
      have hpf : p.height < f := by omega
      have := ih index n.data.prev p hall hplk hpf
      cases hp : pathAux index f n.data.prev with
      | none => rw [hp] at this; cases this
      | some l1 => rfl

theorem pathAux_concat (index : List NodeInfo) (fuel id : Nat) (l : List Nat)
    (h : pathAux index fuel id = some l) : ∃ l0, l = l0 ++ [id] := by
  cases fuel with
  | zero => cases h
  | succ f =>
    simp only [pathAux] at h
    cases hlk : lookupNode index id with
    | none => rw [hlk] at h; cases h
    | some n =>
      rw [hlk] at h
      dsimp only at h
      by_cases h0 : n.height = 0
      · rw [if_pos h0] at h
        injection h with he
        exact ⟨[], by rw [← he]; rfl⟩
      · rw [if_neg h0] at h
        cases hp : pathAux index f n.data.prev with
        | none => rw [hp] at h; cases h
        | some l1 =>
          rw [hp] at h
          injection h with he
          exact ⟨l1, he.symm⟩

theorem pathTo_some_elim (index : List NodeInfo) (id : Nat) (l : List Nat)
    (h : pathTo index id = some l) :
    ∃ n, lookupNode index id = some n ∧ pathAux index (n.height + 1) id = some l := by
  unfold pathTo at h
  cases hlk : lookupNode index id with
  | none => rw [hlk] at h; cases h
  | some n => rw [hlk] at h; exact ⟨n, rfl, h⟩

theorem pathTo_concat (index : List NodeInfo) (id : Nat) (l : List Nat)
    (h : pathTo index id = some l) : ∃ l0, l = l0 ++ [id] := by
  obtain ⟨n, _, hp⟩ := pathTo_some_elim index id l h
  exact pathAux_concat index (n.height + 1) id l hp

theorem pathTo_spec (index : List NodeInfo) (id : Nat) (l : List Nat)
    (hall : ∀ m ∈ index, parentOk index m = true)
    (h : pathTo index id = some l) :
    ∀ i e, l.get? i = some e →
      ∃ m, lookupNode index e = some m ∧ m.height = i ∧ m.data.id = e := by
  obtain ⟨n, hlk, hp⟩ := pathTo_some_elim index id l h
  exact (pathAux_spec (n.height + 1) index id n l hall hlk hp).2

theorem pathTo_length_pos (index : List NodeInfo) (id : Nat) (l : List Nat)
    (h : pathTo index id = some l) : 0 < l.length := by
  obtain ⟨l0, he⟩ := pathTo_concat index id l h
  subst he
  simp

theorem pathTo_zero (index : List NodeInfo) (id : Nat) (l : List Nat)
    (hall : ∀ m ∈ index, parentOk index m = true)
    (h : pathTo index id = some l) : l.get? 0 = some genesisBlock.id := by
  have hpos := pathTo_length_pos index id l h
  cases hget : l.get? 0 with
  | none =>
    rw [List.get?_eq_none] at hget
    omega
  | some e =>
    obtain ⟨m, hmlk, hmh, hmid⟩ := pathTo_spec index id l hall h 0 e hget
    have hpo := hall m (lookupNode_mem index e m hmlk).1
    unfold parentOk at hpo
    rw [if_pos hmh] at hpo
    rw [beq_iff_eq] at hpo
    rw [← hmid, hpo]

theorem pathTo_genesis_only_zero (index : List NodeInfo) (id : Nat)
    (l : List Nat) (i : Nat)
    (hall : ∀ m ∈ index, parentOk index m = true)
    (hg : genesisOk index = true)
    (h : pathTo index id = some l)
    (hi : l.get? i = some genesisBlock.id) : i = 0 := by
  obtain ⟨m, hmlk, hmh, _⟩ := pathTo_spec index id l hall h i genesisBlock.id hi
  unfold genesisOk at hg
  cases hglk : lookupNode index genesisBlock.id with
  | none => rw [hglk] at hg; cases hg
  | some g =>
    rw [hglk] at hg
    simp only [Bool.and_eq_true, beq_iff_eq] at hg
    rw [hglk] at hmlk
    injection hmlk with he
    subst he
    omega

theorem lastId_concat : ∀ (l : List Nat) (x : Nat), lastId (l ++ [x]) = x := by
  intro l
  induction l with
  | nil => intro x; rfl
  | cons y rest ih =>
    intro x
    cases rest with
    | nil => rfl
    | cons z rest2 =>
      show lastId ((z :: rest2) ++ [x]) = x
      exact ih x

theorem containsId_iff :
    ∀ (l : List Nat) (x : Nat), containsId l x = true ↔ x ∈ l := by
  intro l x
  induction l with
  | nil => simp [containsId]
  | cons y rest ih =>
    simp only [containsId]
    by_cases hy : y = x
    · rw [if_pos hy]
      simp [hy]
    · rw [if_neg hy]
      rw [ih]
      constructor
      · exact fun h => List.mem_cons_of_mem y h
      · intro h
        rcases List.mem_cons.mp h with he | hm
        · exact absurd he.symm hy
        · exact hm

theorem sharedStemLen_pos (a b : List Nat) (x : Nat)
    (ha : a.get? 0 = some x) (hb : b.get? 0 = some x) :
    1 ≤ sharedStemLen a b := by
  cases a with
  | nil => cases ha
  | cons y arest =>
    cases b with
    | nil => cases hb
    | cons z brest =>
      simp only [List.get?] at ha hb
      injection ha with ha2
      injection hb with hb2
      subst ha2
      subst hb2
      simp [sharedStemLen]

theorem mem_drop_get? {α : Type} (l : List α) (k : Nat) (e : α)
    (hm : e ∈ l.drop k) : ∃ i, k ≤ i ∧ l.get? i = some e := by
  obtain ⟨j, hj⟩ := List.mem_iff_get?.mp hm
  refine ⟨k + j, Nat.le_add_right k j, ?_⟩
  rw [← List.get?_drop]
  exact hj

theorem genesisOk_node (index : List NodeInfo) (h : genesisOk index = true) :
    ∃ g, lookupNode index genesisBlock.id = some g ∧ g.height = 0 ∧
      g.invalid = false := by
  unfold genesisOk at h
  cases hlk : lookupNode index genesisBlock.id with
  | none => rw [hlk] at h; cases h
  | some g =>
    rw [hlk] at h
    simp only [Bool.and_eq_true, beq_iff_eq, Bool.not_eq_true'] at h
    exact ⟨g, rfl, h.1, h.2⟩

theorem pathTo_genesis (index : List NodeInfo) (h : genesisOk index = true) :
    pathTo index genesisBlock.id = some [genesisBlock.id] := by
  obtain ⟨g, hlk, hh, _⟩ := genesisOk_node index h
  unfold pathTo
  rw [hlk]
  dsimp only
  rw [hh]
  simp only [pathAux]
  rw [hlk]
  dsimp only
  rw [if_pos hh]

theorem inSubtree_genesis (index : List NodeInfo) (r : Nat)
    (hg : genesisOk index = true) (hr : r ≠ genesisBlock.id) :
    inSubtree index r genesisBlock.id = false := by
  unfold inSubtree
  rw [pathTo_genesis index hg]
  dsimp only
  simp only [containsId]
  rw [if_neg (fun he => hr he.symm)]

theorem genesisOk_mark (index : List NodeInfo) (r : Nat)
    (hg : genesisOk index = true) (hr : r ≠ genesisBlock.id) :
    genesisOk (markInvalidFrom index r) = true := by
  obtain ⟨g, hlk, hh, hv⟩ := genesisOk_node index hg
  unfold genesisOk
  rw [lookupNode_mark, hlk]
  simp only [Option.map_some']
  have hgid : g.data.id = genesisBlock.id := (lookupNode_mem _ _ _ hlk).2
  unfold markNode
  rw [hgid, inSubtree_genesis index r hg hr]
  simp [hh, hv]

theorem markInvalidFrom_keys (index : List NodeInfo) (r : Nat) :
    (markInvalidFrom index r).map (fun n => n.data.id) =
      index.map (fun n => n.data.id) := by
  unfold markInvalidFrom
  rw [List.map_map]
  apply List.map_congr_left
  intro n _
  simp only [Function.comp]
  rw [markNode_data]

theorem WfIndex_mark (index : List NodeInfo) (r : Nat)
    (h : WfIndex index) : WfIndex (markInvalidFrom index r) := by
  obtain ⟨hnd, hall⟩ := h
  constructor
  · rw [markInvalidFrom_keys]; exact hnd
  · intro n2 hm2
    obtain ⟨n, hn, he⟩ := List.mem_map.mp hm2
    subst he
    have hpo := hall n hn
    unfold parentOk at hpo ⊢
    rw [markNode_height, markNode_data, markNode_chainWork]
    by_cases h0 : n.height = 0
    · rw [if_pos h0] at hpo ⊢; exact hpo
    · rw [if_neg h0] at hpo ⊢
      cases hlk : lookupNode index n.data.prev with
      | none => rw [hlk] at hpo; cases hpo
      | some p =>
        rw [hlk] at hpo
        rw [lookupNode_mark, hlk]
        simp only [Option.map_some']
        rw [markNode_height, markNode_chainWork]
        exact hpo

theorem connectAll_failed :
    ∀ (index : List NodeInfo) (ids : List Nat) (u : UtxoSet)
      (store : UndoStore) (b : Nat),
    connectAll index ids u store = .failed b →
    b ∈ ids ∧ ∃ n, lookupNode index b = some n := by
  intro index ids
  induction ids with
  | nil => intro u store b h; cases h
  | cons id rest ih =>
    intro u store b h
    simp only [connectAll] at h
    cases hlk : lookupNode index id with
    | none => rw [hlk] at h; cases h
    | some n =>
      rw [hlk] at h
      dsimp only at h
      by_cases hcx : (! n.data.ctxOk) = true
      · rw [if_pos hcx] at h
        injection h with he
        subst he
        exact ⟨List.mem_cons_self id rest, n, hlk⟩
      · rw [if_neg hcx] at h
        cases hap : apply u n.data.spends n.data.creates with
        | none =>
          rw [hap] at h
          injection h with he
          subst he
          exact ⟨List.mem_cons_self id rest, n, hlk⟩
        | some pr =>
          obtain ⟨u2, recs⟩ := pr
          rw [hap] at h
          dsimp only at h
          obtain ⟨hm, hn⟩ := ih _ _ b h
          exact ⟨List.mem_cons_of_mem id hm, hn⟩

theorem connectAll_broken :
    ∀ (index : List NodeInfo) (ids : List Nat) (u : UtxoSet)
      (store : UndoStore),
    connectAll index ids u store = .broken →
    ∃ id ∈ ids, lookupNode index id = none := by
  intro index ids
  induction ids with
  | nil => intro u store h; cases h
  | cons id rest ih =>
    intro u store h
    simp only [connectAll] at h
    cases hlk : lookupNode index id with
    | none => exact ⟨id, List.mem_cons_self id rest, hlk⟩
    | some n =>
      rw [hlk] at h
      dsimp only at h
      by_cases hcx : (! n.data.ctxOk) = true
      · rw [if_pos hcx] at h; cases h
      · rw [if_neg hcx] at h
        cases hap : apply u n.data.spends n.data.creates with
        | none => rw [hap] at h; cases h
        | some pr =>
          obtain ⟨u2, recs⟩ := pr
          rw [hap] at h
          dsimp only at h
          obtain ⟨id2, hm, hn⟩ := ih _ _ h
          exact ⟨id2, List.mem_cons_of_mem id hm, hn⟩

theorem attemptReorg_failed (s : ChainState) (cid b : Nat)
    (h : attemptReorg s cid = .failedConnect b) :
    ∃ newPath, pathTo s.index cid = some newPath ∧
      b ∈ newPath.drop (sharedStemLen s.activeChain newPath) ∧
      ∃ n, lookupNode s.index b = some n := by
  unfold attemptReorg at h
  cases hp : pathTo s.index cid with
  | none => rw [hp] at h; cases h
  | some newPath =>
    rw [hp] at h
    dsimp only at h
    cases hc : connectAll s.index
        (newPath.drop (sharedStemLen s.activeChain newPath))
        (disconnectAll s.index s.undoStore
          (s.activeChain.drop (sharedStemLen s.activeChain newPath)) s.utxo)
        (s.undoStore.filter
          (fun p => ! containsId
            (s.activeChain.drop (sharedStemLen s.activeChain newPath)) p.1)) with
    | ok u2 store2 => rw [hc] at h; cases h
    | failed b2 =>
      rw [hc] at h
      injection h with he
      subst he
      obtain ⟨hm, hn⟩ := connectAll_failed s.index _ _ _ b2 hc
      exact ⟨newPath, rfl, hm, hn⟩
    | broken => rw [hc] at h; cases h

theorem attemptReorg_ok (s : ChainState) (cid : Nat) (u : UtxoSet)
    (chain : List Nat) (store : UndoStore)
    (h : attemptReorg s cid = .ok u chain store) :
    pathTo s.index cid = some chain := by
  unfold attemptReorg at h
  cases hp : pathTo s.index cid with
  | none => rw [hp] at h; cases h
  | some newPath =>
    rw [hp] at h
    dsimp only at h
    cases hc : connectAll s.index
        (newPath.drop (sharedStemLen s.activeChain newPath))
        (disconnectAll s.index s.undoStore
          (s.activeChain.drop (sharedStemLen s.activeChain newPath)) s.utxo)
        (s.undoStore.filter
          (fun p => ! containsId
            (s.activeChain.drop (sharedStemLen s.activeChain newPath)) p.1)) with
    | ok u2 store2 =>
      rw [hc] at h
      injection h with h1 h2 h3
      rw [h2]
    | failed b2 => rw [hc] at h; cases h
    | broken => rw [hc] at h; cases h

theorem attemptReorg_not_stuck (s : ChainState) (cid : Nat) (n : NodeInfo)
    (hall : ∀ m ∈ s.index, parentOk s.index m = true)
    (hlk : lookupNode s.index cid = some n) :
    attemptReorg s cid ≠ .stuck := by
  intro h
  unfold attemptReorg at h
  cases hp : pathTo s.index cid with
  | none =>
    have htot := pathAux_total (n.height + 1) s.index cid n hall hlk
      (Nat.lt_succ_self n.height)
    unfold pathTo at hp
    rw [hlk] at hp
    dsimp only at hp
    rw [hp] at htot
    cases htot
  | some newPath =>
    rw [hp] at h
    dsimp only at h
    cases hc : connectAll s.index
        (newPath.drop (sharedStemLen s.activeChain newPath))
        (disconnectAll s.index s.undoStore
          (s.activeChain.drop (sharedStemLen s.activeChain newPath)) s.utxo)
        (s.undoStore.filter
          (fun p => ! containsId
            (s.activeChain.drop (sharedStemLen s.activeChain newPath)) p.1)) with
    | ok u2 store2 => rw [hc] at h; cases h
    | failed b2 => rw [hc] at h; cases h
    | broken =>
      obtain ⟨id2, hid2, hnone⟩ := connectAll_broken s.index _ _ _ hc
      have hmem : id2 ∈ newPath := List.mem_of_mem_drop hid2
      obtain ⟨j, hj⟩ := List.mem_iff_get?.mp hmem
      obtain ⟨m, hmlk, _, _⟩ := pathTo_spec s.index cid newPath hall hp j id2 hj
      rw [hnone] at hmlk
      cases hmlk

theorem abcLoop_inv :
    ∀ (fuel : Nat) (s : ChainState),
    PreInv s → validCount s.index < fuel → ChainInv (abcLoop fuel s) := by
  intro fuel
  induction fuel with
  | zero => intro s _ hcount; omega
  | succ f ih =>
    intro s hpre hcount
    obtain ⟨hwf, hgen, hpath⟩ := hpre
    obtain ⟨g, hglk, hgh, hgv⟩ := genesisOk_node s.index hgen
    have hgmem := (lookupNode_mem _ _ _ hglk).1
    simp only [abcLoop]
    cases hc : mostWorkCandidate s.index with
    | none =>
      have hs := mostWorkCandidate_isSome s.index none g hgmem hgv
      unfold mostWorkCandidate at hc
      rw [hc] at hs
      cases hs
    | some c =>
      dsimp only
      obtain ⟨hcmem, hcv, hcdom⟩ := mostWorkCandidate_spec s.index c hc
      by_cases hct : c.data.id = tipId s
      · rw [if_pos hct]
        refine ⟨⟨hwf, hgen, hpath⟩, ?_⟩
        unfold tipIsCandidate
        rw [hc]
        simp [hct]
      · rw [if_neg hct]
        have hclk : lookupNode s.index c.data.id = some c :=
          lookupNode_self s.index c hwf.1 hcmem
        cases hr : attemptReorg s c.data.id with
        | stuck =>
          exact absurd hr (attemptReorg_not_stuck s c.data.id c hwf.2 hclk)
        | failedConnect b =>
          dsimp only
          obtain ⟨newPath, hnp, hbdrop, nb, hnblk⟩ :=
            attemptReorg_failed s c.data.id b hr
          have h0a : s.activeChain.get? 0 = some genesisBlock.id :=
            pathTo_zero s.index (tipId s) s.activeChain hwf.2 hpath
          have h0n : newPath.get? 0 = some genesisBlock.id :=
            pathTo_zero s.index c.data.id newPath hwf.2 hnp
          have hk1 : 1 ≤ sharedStemLen s.activeChain newPath :=
            sharedStemLen_pos _ _ _ h0a h0n
          have hbne : b ≠ genesisBlock.id := by
            intro he
            subst he
            obtain ⟨i, hik, hgi⟩ := mem_drop_get? newPath _ _ hbdrop
            have := pathTo_genesis_only_zero s.index c.data.id newPath i
              hwf.2 hgen hnp hgi
            omega
          have hsub : inSubtree s.index b c.data.id = true := by
            unfold inSubtree
            rw [hnp]
            exact (containsId_iff newPath b).mpr (List.mem_of_mem_drop hbdrop)
          have hpre2 : PreInv (applyFailure s b) := by
            refine ⟨WfIndex_mark s.index b hwf,
              genesisOk_mark s.index b hgen hbne, ?_⟩
            show pathTo (markInvalidFrom s.index b) (tipId (applyFailure s b)) =
              some s.activeChain
            have he : tipId (applyFailure s b) = tipId s := rfl
            rw [he, pathTo_mark]
            exact hpath
          have hdec : validCount (markInvalidFrom s.index b) < validCount s.index :=
            validCount_mark_lt s.index b c hcmem hcv hsub
          apply ih (applyFailure s b) hpre2
          have he2 : validCount (applyFailure s b).index =
            validCount (markInvalidFrom s.index b) := rfl
          omega
        | ok u chain store =>
          dsimp only
          have hchain := attemptReorg_ok s c.data.id u chain store hr
          obtain ⟨l0, hl0⟩ := pathTo_concat s.index c.data.id chain hchain
          have htip2 : lastId chain = c.data.id := by
            rw [hl0]; exact lastId_concat l0 c.data.id
          have hpre2 :
              PreInv { s with utxo := u, activeChain := chain, undoStore := store } := by
            refine ⟨hwf, hgen, ?_⟩
            show pathTo s.index (lastId chain) = some chain
            rw [htip2]
            exact hchain
          have hv1 : 1 ≤ validCount s.index := validCount_pos s.index g hgmem hgv
          cases f with
          | zero => omega
          | succ f2 =>
            simp only [abcLoop]
            rw [hc]
            dsimp only
            rw [if_pos (show c.data.id =
              tipId (ChainState.mk s.index chain u store s.nextSeq)
              from htip2.symm)]
            refine ⟨hpre2, ?_⟩
            unfold tipIsCandidate
            dsimp only
            rw [hc]
            simp only [beq_iff_eq]
            exact htip2.symm

theorem WfIndex_append (index : List NodeInfo) (nn : NodeInfo) (p : NodeInfo)
    (h : WfIndex index)
    (hfresh : lookupNode index nn.data.id = none)
    (hp : lookupNode index nn.data.prev = some p)
    (hh : nn.height = p.height + 1)
    (hw : nn.chainWork = p.chainWork + nn.data.work)
    (hwpos : 0 < nn.data.work) :
    WfIndex (index ++ [nn]) := by
  obtain ⟨hnd, hall⟩ := h
  constructor
  · rw [List.map_append]
    rw [List.nodup_append]
    refine ⟨hnd, List.nodup_singleton _, ?_⟩
    intro a ha hb
    simp only [List.map_cons, List.map_nil, List.mem_singleton] at hb
    subst hb
    obtain ⟨m, hm, he⟩ := List.mem_map.mp ha
    exact lookupNode_none_notin index nn.data.id hfresh m hm he
  · intro n hn
    rcases List.mem_append.mp hn with hmem | hmem
    · have hpo := hall n hmem
      unfold parentOk at hpo ⊢
      by_cases h0 : n.height = 0
      · rw [if_pos h0] at hpo ⊢; exact hpo
      · rw [if_neg h0] at hpo ⊢
        cases hlk : lookupNode index n.data.prev with
        | none => rw [hlk] at hpo; cases hpo
        | some q =>
          rw [hlk] at hpo
          rw [lookupNode_append_some index [nn] n.data.prev q hlk]
          exact hpo
    · simp only [List.mem_singleton] at hmem
      subst hmem
      unfold parentOk
      rw [if_neg (by omega : ¬ n.height = 0)]
      rw [lookupNode_append_some index [n] n.data.prev p hp]
      simp only [Bool.and_eq_true, beq_iff_eq, decide_eq_true_eq]
      exact ⟨⟨hh.symm, hw⟩, hwpos⟩

theorem genesisOk_append (index : List NodeInfo) (nn : NodeInfo)
    (h : genesisOk index = true) : genesisOk (index ++ [nn]) = true := by
  obtain ⟨g, hlk, hh, hv⟩ := genesisOk_node index h
  unfold genesisOk
  rw [lookupNode_append_some index [nn] _ g hlk]
  simp [hh, hv]

theorem submitBlock_inv (s : ChainState) (b : BlockData)
    (h : ChainInv s) : ChainInv (submitBlock s b).2 := by
  obtain ⟨⟨hwf, hgen, hpath⟩, htip⟩ := h
  unfold submitBlock insertHeader
  cases hlk : lookupNode s.index b.id with
  | some n => exact ⟨⟨hwf, hgen, hpath⟩, htip⟩
  | none =>
    dsimp only
    cases hplk : lookupNode s.index b.prev with
    | none => exact ⟨⟨hwf, hgen, hpath⟩, htip⟩
    | some p =>
      dsimp only
      by_cases hw0 : b.work = 0
      · rw [if_pos hw0]
        exact ⟨⟨hwf, hgen, hpath⟩, htip⟩
      · rw [if_neg hw0]
        dsimp only
        apply abcLoop_inv
        · refine ⟨?_, ?_, ?_⟩
          · exact WfIndex_append s.index _ p hwf hlk hplk rfl rfl
              (Nat.pos_of_ne_zero hw0)
          · exact genesisOk_append s.index _ hgen
          · exact pathTo_append_some s.index _ (tipId s) s.activeChain hpath
        · omega

theorem reachable_inv (s : ChainState) (h : Reachable s) : ChainInv s := by
  induction h with
  | init => unfold ChainInv PreInv WfIndex; decide
  | submit s0 b _ ih => exact submitBlock_inv s0 b ih

/-- C3: during chain activation, when a connect step of the candidate
branch fails contextual validation at block `b`, the failure handler marks
`b` and all of its descendants invalid, while the active chain, the UTXO
Set and the stored undo data remain exactly those from before the attempt
— no partially-applied UTXO state is visible after the rollback. -/
theorem connect_failure_rollback (s : ChainState) (cid b : Nat)
    (hwf : WfIndex s.index)
    (h : attemptReorg s cid = .failedConnect b) :
    (∃ nb, lookupNode (applyFailure s b).index b = some nb ∧
      nb.invalid = true) ∧
    (∀ n ∈ (applyFailure s b).index, inSubtree s.index b n.data.id = true →
      n.invalid = true) ∧
    (applyFailure s b).utxo = s.utxo ∧
    (applyFailure s b).activeChain = s.activeChain ∧
    (applyFailure s b).undoStore = s.undoStore := by
  obtain ⟨newPath, hnp, hbdrop, nb0, hnblk⟩ := attemptReorg_failed s cid b h
  have hsubb : inSubtree s.index b b = true := by
    unfold inSubtree
    have htot := pathAux_total (nb0.height + 1) s.index b nb0 hwf.2 hnblk
      (Nat.lt_succ_self _)
    unfold pathTo
    rw [hnblk]
    dsimp only
    cases hpb : pathAux s.index (nb0.height + 1) b with
    | none => rw [hpb] at htot; cases htot
    | some pb =>
      dsimp only
      obtain ⟨l0, hl0⟩ := pathAux_concat s.index (nb0.height + 1) b pb hpb
      subst hl0
      rw [containsId_iff]
      exact List.mem_append.mpr (Or.inr (List.mem_singleton.mpr rfl))
  refine ⟨?_, ?_, rfl, rfl, rfl⟩
  · refine ⟨markNode s.index b nb0, ?_, ?_⟩
    · show lookupNode (markInvalidFrom s.index b) b = _
      rw [lookupNode_mark, hnblk]
      simp only [Option.map_some']
    · unfold markNode
      have hid : nb0.data.id = b := (lookupNode_mem _ _ _ hnblk).2
      rw [hid, if_pos hsubb]
  · intro n hn hin
    obtain ⟨m, hm, he⟩ := List.mem_map.mp hn
    subst he
    rw [markNode_data] at hin
    unfold markNode
    rw [if_pos hin]

theorem connect_failure_rollback_witness :
    (∃ nb, lookupNode (applyFailure sC3 2).index 2 = some nb ∧
      nb.invalid = true) ∧
    (∀ n ∈ (applyFailure sC3 2).index, inSubtree sC3.index 2 n.data.id = true →
      n.invalid = true) ∧
    (applyFailure sC3 2).utxo = sC3.utxo ∧
    (applyFailure sC3 2).activeChain = sC3.activeChain ∧
    (applyFailure sC3 2).undoStore = sC3.undoStore :=
  connect_failure_rollback sC3 2 2 (by unfold WfIndex; decide) rfl

/-- C4: in every reachable chain state, cumulative work is strictly
additive along block ancestry (each node's chain work is its parent's plus
its own positive work), and the active tip is a valid leaf (no valid child
extends it) whose cumulative work is at least that of every other valid
node, equal-work ties being held by the earliest-seen node. -/
theorem active_tip_invariant (s : ChainState) (h : Reachable s) :
    (∀ n ∈ s.index, ∀ p, lookupNode s.index n.data.prev = some p →
      0 < n.height → n.chainWork = p.chainWork + n.data.work ∧
        0 < n.data.work) ∧
    ∃ t, lookupNode s.index (tipId s) = some t ∧ t.invalid = false ∧
      (∀ c ∈ s.index, lookupNode s.index c.data.prev = some t →
        0 < c.height → c.invalid = true) ∧
      ∀ n ∈ s.index, n.invalid = false →
        n.chainWork < t.chainWork ∨
          (n.chainWork = t.chainWork ∧ t.seq ≤ n.seq) := by
  obtain ⟨⟨hwf, hgen, hpath⟩, htip⟩ := reachable_inv s h
  constructor
  · intro n hn p hplk hh0
    have hpo := hwf.2 n hn
    obtain ⟨p2, hplk2, hph2, hcw2, hwp2⟩ :=
      parentOk_parent s.index n hpo (by omega)
    rw [hplk] at hplk2
    injection hplk2 with he
    subst he
    exact ⟨hcw2, hwp2⟩
  · unfold tipIsCandidate at htip
    cases hc : mostWorkCandidate s.index with
    | none => rw [hc] at htip; cases htip
    | some t =>
      rw [hc] at htip
      simp only [beq_iff_eq] at htip
      obtain ⟨htmem, htv, htdom⟩ := mostWorkCandidate_spec s.index t hc
      have htlk : lookupNode s.index (tipId s) = some t := by
        rw [← htip]
        exact lookupNode_self s.index t hwf.1 htmem
      refine ⟨t, htlk, htv, ?_, ?_⟩
      · intro c hcm hcplk hch0
        by_contra hcv
        rw [Bool.not_eq_true] at hcv
        have hpo := hwf.2 c hcm
        obtain ⟨p2, hplk2, hph2, hcw2, hwp2⟩ :=
          parentOk_parent s.index c hpo (by omega)
        rw [hcplk] at hplk2
        injection hplk2 with he
        subst he
        have hbc := htdom c hcm hcv
        rw [betterCand_false_iff] at hbc
        omega
      · intro n hn hv
        have hbc := htdom n hn hv
        rw [betterCand_false_iff] at hbc
        omega

theorem active_tip_invariant_witness :
    (∀ n ∈ initState.index, ∀ p,
      lookupNode initState.index n.data.prev = some p →
      0 < n.height → n.chainWork = p.chainWork + n.data.work ∧
        0 < n.data.work) ∧
    ∃ t, lookupNode initState.index (tipId initState) = some t ∧
      t.invalid = false ∧
      (∀ c ∈ initState.index, lookupNode initState.index c.data.prev = some t →
        0 < c.height → c.invalid = true) ∧
      ∀ n ∈ initState.index, n.invalid = false →
        n.chainWork < t.chainWork ∨
          (n.chainWork = t.chainWork ∧ t.seq ≤ n.seq) :=
  active_tip_invariant initState Reachable.init

/-- C7: submitting a block whose id the Block Index already holds (in
particular one already connected) is idempotent — the submission reports
"already known" and returns the state unchanged, so the UTXO Set is
untouched. -/
theorem submit_known_idempotent (s : ChainState) (b : BlockData)
    (n : NodeInfo) (h : lookupNode s.index b.id = some n) :
    submitBlock s b = (.alreadyKnown, s) ∧
    (submitBlock s b).2.utxo = s.utxo := by
  have he : submitBlock s b = (.alreadyKnown, s) := by
    unfold submitBlock insertHeader
    rw [h]
  exact ⟨he, by rw [he]⟩

theorem submit_known_idempotent_witness :
    submitBlock sA blockA = (.alreadyKnown, sA) ∧
    (submitBlock sA blockA).2.utxo = sA.utxo :=
  submit_known_idempotent sA blockA nodeA rfl

end BitcoinC
